import Mathlib

/-!
# Archive extraction (`archive.go`): dispatch, ZIP extractor, TAR extractor

A shallow embedding of `unarchive`, `unzip` and `untar`.

Modelling conventions.

* Go strings are `String`; the suffix test of `strings.HasSuffix` is taken on
  the character lists.
* A path handed to the operating system is kept in cleaned form (`Path`): a
  rooted flag and the list of components, innermost component first.
  `filepath.Join` is the stack machine of `filepath.Clean` run over the
  components of the stored name on top of the destination.
* The file system is a map from cleaned paths to nodes.  The
  root, the working directory and the chain of its ancestors (`..`, `../..`)
  always exist.  Symbolic links, ownership and permission checks are not
  modelled (every operation is permitted); a node records the permission bits
  that were requested when it was created (before umask).
* The decoders (`archive/zip`, `archive/tar`, `compress/gzip`) are not part of
  the repository: a readable source file is given together with what each
  decoder yields on it.  Source files are kept apart from the extraction tree.
* `Close` is taken to succeed, so the `panic` branches are never entered.
* The world carries the set of open file handles and a trace of the logger
  calls and extractor invocations.
-/

namespace Archive

/-! ## Errors, paths, nodes -/

/-- Error values returned by the system calls and by the decoders. -/
inductive Err
  | ENOENT
  | ENOTDIR
  | EISDIR
  | EEXIST
  | decode (msg : String)
deriving DecidableEq, Repr

/-- Cleaned path name: `rooted` tells whether it starts at `/`; `rev` lists the
components with the last one first (`d/notes/a.txt` is `["a.txt","notes","d"]`).
The empty list is `/` when rooted and `.` otherwise. -/
structure Path where
  rooted : Bool
  rev : List String
deriving DecidableEq, Repr

/-- Relative path from its components in reading order. -/
def relPath (comps : List String) : Path := ⟨false, comps.reverse⟩

/-- Absolute path from its components in reading order. -/
def absPath (comps : List String) : Path := ⟨true, comps.reverse⟩

/-- Split a name at every `/`. -/
def splitSlash : List Char → List (List Char)
  | [] => [[]]
  | c :: cs =>
    match splitSlash cs with
    | [] => [[]]
    | seg :: segs => if c = '/' then [] :: seg :: segs else (c :: seg) :: segs

/-- The components of a name, in reading order. -/
def segments (name : String) : List String :=
  (splitSlash name.data).map String.mk

/-- One step of `filepath.Clean`: empty and `.` components are dropped, `..`
removes the component before it, is dropped at the root and is kept at the
front of a relative path; anything else is pushed. -/
def cleanPush (rooted : Bool) (stack : List String) (seg : String) : List String :=
  if seg = "" ∨ seg = "." then stack
  else if seg = ".." then
    match stack with
    | [] => if rooted then [] else [".."]
    | top :: rest => if top = ".." then ".." :: top :: rest else rest
  else seg :: stack

/-- The call `filepath.Join(dst, name)` for a cleaned, non-empty `dst`:
`Clean(dst + "/" + name)`. -/
def joinPath (dst : Path) (name : String) : Path :=
  ⟨dst.rooted, (segments name).foldl (cleanPush dst.rooted) dst.rev⟩

/-- The function `filepath.Dir` on a cleaned path. -/
def Path.parent (p : Path) : Path := ⟨p.rooted, p.rev.tail⟩

/-- The root, the working directory and its ancestors. -/
def Path.isAnchor (p : Path) : Bool := p.rev.all (fun c => c == "..")

/-- Path `p` is `d` or lies below it. -/
def Path.under (p d : Path) : Prop := p.rooted = d.rooted ∧ d.rev <:+ p.rev

/-- Path `p` lies strictly below `d`. -/
def Path.below (p d : Path) : Prop := p.under d ∧ p ≠ d

/-- Printed form of a cleaned path. -/
def Path.render (p : Path) : String :=
  match p.rooted, p.rev with
  | true, cs => "/" ++ "/".intercalate cs.reverse
  | false, [] => "."
  | false, cs => "/".intercalate cs.reverse

/-- File-system object: a directory or a regular file, with the permission
bits it was created with and, for a file, its bytes. -/
inductive Node
  | dir (perm : Nat)
  | file (perm : Nat) (content : List Nat)
deriving DecidableEq, Repr

/-- True for a directory node. -/
def Node.isDir : Node → Bool
  | .dir _ => true
  | .file _ _ => false

/-- File system: the node at each cleaned path, if any. -/
abbrev FS := Path → Option Node

/-- The file system with nothing in it (besides the anchors). -/
def FS.empty : FS := fun _ => none

/-- Put node `n` at path `p`. -/
def FS.set (fs : FS) (p : Path) (n : Node) : FS :=
  fun q => if q = p then some n else fs q

/-! ## System calls -/

/-- The call `os.Stat`: the node at `p`; `none` stands for any error.  Anchors are
directories (their mode is not modelled and reported as 0755). -/
def stat (fs : FS) (p : Path) : Option Node :=
  if p.isAnchor then some (Node.dir 0o755) else fs p

/-- The call `os.Mkdir`: the path must be absent and its parent a directory. -/
def mkdir (fs : FS) (p : Path) (perm : Nat) : Except Err FS :=
  match stat fs p with
  | some _ => .error .EEXIST
  | none =>
    match stat fs p.parent with
    | some (.dir _) => .ok (fs.set p (.dir perm))
    | some (.file _ _) => .error .ENOTDIR
    | none => .error .ENOENT

/-- The tail of `os.MkdirAll`: call `Mkdir`, and when it fails accept an
existing directory. -/
def mkdirChecked (fs : FS) (p : Path) (perm : Nat) : Except Err FS :=
  match mkdir fs p perm with
  | .ok fs1 => .ok fs1
  | .error e =>
    match stat fs p with
    | some (.dir _) => .ok fs
    | _ => .error e

/-- The call `os.MkdirAll` by recursion over the components: an existing directory is
success, an existing file is `ENOTDIR`, otherwise the parent is ensured first
and the directory is made. -/
def mkdirAllRev (rooted : Bool) (perm : Nat) : List String → FS → Except Err FS
  | [], fs => .ok fs
  | c :: rest, fs =>
    match stat fs ⟨rooted, c :: rest⟩ with
    | some (.dir _) => .ok fs
    | some (.file _ _) => .error .ENOTDIR
    | none =>
      match mkdirAllRev rooted perm rest fs with
      | .error e => .error e
      | .ok fs1 => mkdirChecked fs1 ⟨rooted, c :: rest⟩ perm

/-- The call `os.MkdirAll(p, perm)`. -/
def mkdirAll (fs : FS) (p : Path) (perm : Nat) : Except Err FS :=
  mkdirAllRev p.rooted perm p.rev fs

/-- The call `os.OpenFile(p, O_CREATE | (O_TRUNC when trunc) | write access, perm)`:
a directory cannot be opened for writing; an existing file keeps its mode and
loses its bytes only under `O_TRUNC`; a missing file is created empty with
`perm` when its parent is a directory. -/
def openFile (fs : FS) (p : Path) (trunc : Bool) (perm : Nat) : Except Err FS :=
  match stat fs p with
  | some (.dir _) => .error .EISDIR
  | some (.file m _) => .ok (if trunc then fs.set p (.file m []) else fs)
  | none =>
    match stat fs p.parent with
    | some (.dir _) => .ok (fs.set p (.file perm []))
    | some (.file _ _) => .error .ENOTDIR
    | none => .error .ENOENT

/-- Bytes of a file after `body` was written from offset 0 over `old`. -/
def overwrite (body old : List Nat) : List Nat := body ++ old.drop body.length

/-- The call `io.Copy` into the file just opened at `p`: the bytes go to offsets
`0 .. len-1`, whatever lies beyond stays. -/
def writeFile (fs : FS) (p : Path) (body : List Nat) : FS :=
  match fs p with
  | some (.file m c) => fs.set p (.file m (overwrite body c))
  | _ => fs

/-! ## The world: file system, source files, open handles, trace -/

/-- Open file handle: on a source file (by name) or on a destination file. -/
inductive Handle
  | src (path : String)
  | dst (p : Path)
deriving DecidableEq, Repr

/-- Observable events: a call of the logger, an invocation of an extractor. -/
inductive Event
  | logged (err : Err) (msg : String)
  | unzipCalled (src : String) (dest : Path)
  | untarCalled (dst : Path)
deriving DecidableEq, Repr

/-- Entry of a ZIP container as the decoder presents it: stored name,
`FileInfo().IsDir()`, `Mode()` permission bits, the outcome of `Open()`, the
bytes its reader delivers and the error (if any) the reader ends with. -/
structure ZipEntry where
  name : String
  isDir : Bool
  mode : Nat
  openErr : Option Err
  body : List Nat
  copyErr : Option Err
deriving DecidableEq, Repr

/-- The type flags `untar` distinguishes. -/
inductive TarType
  | dir
  | reg
  | other
deriving DecidableEq, Repr

/-- The fields of a TAR header that `untar` reads; `mode` stands for the
permission bits of `header.Mode`. -/
structure TarHeader where
  name : String
  typeflag : TarType
  mode : Nat
deriving DecidableEq, Repr

/-- What one call of `tr.Next()` yields before the end of the stream: a nil
header, or a header with the bytes its body delivers and the error (if any)
the body ends with. -/
inductive TarItem
  | nilHeader
  | entry (h : TarHeader) (body : List Nat) (copyErr : Option Err)
deriving DecidableEq, Repr

/-- TAR stream: the items `Next` yields, then `io.EOF` (`final = none`) or a
read error. -/
structure TarStream where
  items : List TarItem
  final : Option Err
deriving DecidableEq, Repr

/-- Readable source file, with what each decoder makes of its bytes. -/
structure Source where
  zip : Except Err (List ZipEntry)
  tar : TarStream
  gzip : Except Err TarStream

/-- State of the process and its surroundings. -/
structure World where
  fs : FS
  sources : String → Except Err Source
  handles : List Handle
  trace : List Event

/-- Append an event to the trace. -/
def World.emit (w : World) (e : Event) : World :=
  { w with trace := w.trace ++ [e] }

/-- A handle is opened. -/
def World.acquire (w : World) (h : Handle) : World :=
  { w with handles := h :: w.handles }

/-- A handle is closed. -/
def World.release (w : World) (h : Handle) : World :=
  { w with handles := w.handles.erase h }

/-- Replace the file system. -/
def World.withFs (w : World) (fs : FS) : World :=
  { w with fs := fs }

/-- The world in which the source file `path` holds `s`. -/
def World.withSource (w : World) (path : String) (s : Source) : World :=
  { w with sources := fun p => if p = path then .ok s else w.sources p }

/-- The source file with another ZIP content. -/
def Source.withZip (s : Source) (entries : List ZipEntry) : Source :=
  { s with zip := .ok entries }

/-! ## `unzip` -/

/-- The closure `extractAndWriteFile` of `unzip`, for the destination `dest`. -/
def extractAndWriteFile (dest : Path) (w : World) (f : ZipEntry) : Option Err × World :=
  match f.openErr with
  | some e => (some e, w)
  | none =>
    let path := joinPath dest f.name
    if f.isDir then
      match mkdirAll w.fs path f.mode with
      | .error e =>
        (some e, w.emit (.logged e ("unzip: failed to create sub directory: " ++ path.render)))
      | .ok fs1 => (none, w.withFs fs1)
    else
      match mkdirAll w.fs path.parent f.mode with
      | .error e =>
        (some e, w.emit (.logged e
          ("unzip: failed to create parent directory for: " ++ path.render)))
      | .ok fs1 =>
        match openFile fs1 path true f.mode with
        | .error e => (some e, w.withFs fs1)
        | .ok fs2 =>
          let w1 := (w.withFs fs2).acquire (.dst path)
          let w2 := w1.withFs (writeFile w1.fs path f.body)
          (f.copyErr, w2.release (.dst path))

/-- The loop of `unzip` over `r.File`: stop at the first error. -/
def unzipLoop (dest : Path) : List ZipEntry → World → Option Err × World
  | [], w => (none, w)
  | f :: rest, w =>
    match extractAndWriteFile dest w f with
    | (some e, w1) => (some e, w1)
    | (none, w1) => unzipLoop dest rest w1

/-- The function `unzip(src, dest)`. -/
def unzip (w0 : World) (src : String) (dest : Path) : Option Err × World :=
  let w := w0.emit (.unzipCalled src dest)
  match w.sources src with
  | .error e => (some e, w)
  | .ok s =>
    match s.zip with
    | .error e => (some e, w)
    | .ok entries =>
      let w1 := w.acquire (.src src)
      match mkdirAll w1.fs dest 0o755 with
      | .error e =>
        ((some e, (w1.emit (.logged e "failed to create the unzip destination dir")).release
          (.src src)))
      | .ok fs1 =>
        match unzipLoop dest entries (w1.withFs fs1) with
        | (r, w2) => (r, w2.release (.src src))

/-! ## `untar` -/

/-- One round of the loop of `untar` on a non-nil header: `none` in the first
component means the loop goes on. -/
def untarEntry (dst : Path) (w : World) (h : TarHeader) (body : List Nat)
    (copyErr : Option Err) : Option Err × World :=
  let target := joinPath dst h.name
  match h.typeflag with
  | .dir =>
    match stat w.fs target with
    | some _ => (none, w)
    | none =>
      match mkdirAll w.fs target 0o755 with
      | .error e => (some e, w)
      | .ok fs1 => (none, w.withFs fs1)
  | .reg =>
    match openFile w.fs target false h.mode with
    | .error e => (some e, w)
    | .ok fs1 =>
      let w1 := (w.withFs fs1).acquire (.dst target)
      let w2 := w1.withFs (writeFile w1.fs target body)
      match copyErr with
      | some e => (some e, w2)
      | none => (none, w2.release (.dst target))
  | .other => (none, w)

/-- The loop of `untar`: `io.EOF` ends it with success, any other read error
with that error, a nil header is skipped. -/
def untarLoop (dst : Path) (final : Option Err) : List TarItem → World → Option Err × World
  | [], w => (final, w)
  | .nilHeader :: rest, w => untarLoop dst final rest w
  | .entry h body copyErr :: rest, w =>
    match untarEntry dst w h body copyErr with
    | (some e, w1) => (some e, w1)
    | (none, w1) => untarLoop dst final rest w1

/-- The function `untar(r, dst)`, for the reader `r` that yields the stream `s`. -/
def untar (w : World) (s : TarStream) (dst : Path) : Option Err × World :=
  untarLoop dst s.final s.items (w.emit (.untarCalled dst))

/-! ## `unarchive` -/

/-- The test `strings.HasSuffix`. -/
def hasSuffix (s suffix : String) : Bool := suffix.data.isSuffixOf s.data

/-- Result of `unarchive`: the kind, the error, and the world it leaves. -/
structure Outcome where
  kind : String
  err : Option Err
  world : World

/-- The function `unarchive(path, dstDir)`. -/
def unarchive (w : World) (path : String) (dstDir : Path) : Outcome :=
  if hasSuffix path "zip" then
    match unzip w path dstDir with
    | (r, w1) => ⟨"zip", r, w1⟩
  else if hasSuffix path "tar" then
    match w.sources path with
    | .error e => ⟨"tar", some e, w.emit (.logged e ("cannot read from: " ++ path))⟩
    | .ok s =>
      match untar (w.acquire (.src path)) s.tar dstDir with
      | (r, w1) => ⟨"tar", r, w1.release (.src path)⟩
  else if hasSuffix path "tar.gz" || hasSuffix path "tgz" then
    match w.sources path with
    | .error e => ⟨"tgz", some e, w.emit (.logged e ("cannot read from: " ++ path))⟩
    | .ok s =>
      let w1 := w.acquire (.src path)
      match s.gzip with
      | .error e =>
        ⟨"tgz", some e, w1.emit (.logged e ("unarchive: failed to create un-gzip : " ++ path))⟩
      | .ok tarf =>
        match untar w1 tarf dstDir with
        | (r, w2) => ⟨"tgz", r, w2⟩
  else ⟨"file", none, w⟩

/-! ## Notions used to state and prove the properties -/

/-- The bytes of the regular file at `q`; empty when `q` is not a regular file. -/
def contentAt (fs : FS) (q : Path) : List Nat :=
  match fs q with
  | some (.file _ c) => c
  | _ => []

/-- Every node of `fs` is still there in `fs1`, with the same kind. -/
def FS.Ext (fs fs1 : FS) : Prop :=
  ∀ q n, fs q = some n → ∃ n1, fs1 q = some n1 ∧ n1.isDir = n.isDir

/-- The file system is a tree: the parent of every node is a directory. -/
def FS.Tree (fs : FS) : Prop :=
  ∀ q, fs q ≠ none → ∃ pm, stat fs q.parent = some (.dir pm)

/-- What a round of an extraction loop writes: the bytes `body` into the file
at `path`, after truncation or from offset 0 over the old bytes. -/
structure Write where
  path : Path
  body : List Nat
  trunc : Bool

/-- The bytes of the file after the write, from the bytes before. -/
def Write.apply (wr : Write) (old : List Nat) : List Nat :=
  if wr.trunc then wr.body else overwrite wr.body old

/-- A write carried out on a file that exists. -/
def applyWrite (fs : FS) : Option Write → FS
  | none => fs
  | some wr =>
    match fs wr.path with
    | some (.file m c) => fs.set wr.path (.file m (wr.apply c))
    | _ => fs

/-- The bytes at `q` after a sequence of writes, from the bytes before. -/
def written (wrs : List (Option Write)) (q : Path) (c : List Nat) : List Nat :=
  wrs.foldl (fun c wr =>
    match wr with
    | some wr => if wr.path = q then wr.apply c else c
    | none => c) c

/-- One round of an extraction loop. -/
abbrev Round := World → Option Err × World

/-- A loop that runs its rounds in order and stops at the first error. -/
def runRounds : List Round → World → Option Err × World
  | [], w => (none, w)
  | r :: rs, w =>
    match r w with
    | (some e, w1) => (some e, w1)
    | (none, w1) => runRounds rs w1

/-- A round that, when it succeeds, keeps all nodes, changes bytes only by its
write, and succeeds again with just that write on any later file system. -/
def GoodRound (r : Round) (wr : Option Write) : Prop :=
  ∀ w w1, r w = (none, w1) →
    FS.Ext w.fs w1.fs ∧
    (∀ q, contentAt w1.fs q = written [wr] q (contentAt w.fs q)) ∧
    (∀ T : World, FS.Ext w1.fs T.fs → ∃ T1, r T = (none, T1) ∧ T1.fs = applyWrite T.fs wr)

/-- The round of `unzip` for entry `f`. -/
def zipRound (dest : Path) (f : ZipEntry) : Round :=
  fun w => extractAndWriteFile dest w f

/-- The write of the round of `unzip` for entry `f`. -/
def zipWrite (dest : Path) (f : ZipEntry) : Option Write :=
  if f.isDir then none else some ⟨joinPath dest f.name, f.body, true⟩

/-- The round of `untar` for one item of the stream. -/
def tarRound (dst : Path) : TarItem → Round
  | .nilHeader => fun w => (none, w)
  | .entry h body copyErr => fun w => untarEntry dst w h body copyErr

/-- The write of the round of `untar` for one item of the stream. -/
def tarWrite (dst : Path) : TarItem → Option Write
  | .nilHeader => none
  | .entry h body _ =>
    match h.typeflag with
    | .reg => some ⟨joinPath dst h.name, body, false⟩
    | _ => none

/-- What holds of the file system while `unzip` fills an empty destination
`dest`, after the entries `done`: the destination is a directory, every regular
file below it is the file of a processed entry, every processed regular-file
entry has its file with its mode and bytes, and the path of every processed
directory entry is a directory. -/
def ZipInv (dest : Path) (done : List ZipEntry) (fs : FS) : Prop :=
  (∃ pm, stat fs dest = some (.dir pm)) ∧
  (∀ q m c, q.below dest → fs q = some (.file m c) →
    ∃ f ∈ done, f.isDir = false ∧ joinPath dest f.name = q) ∧
  (∀ f ∈ done, f.isDir = false → fs (joinPath dest f.name) = some (.file f.mode f.body)) ∧
  (∀ f ∈ done, f.isDir = true → ∃ pm, stat fs (joinPath dest f.name) = some (.dir pm))

/-- The destination holds exactly the container: every regular-file entry is a
regular file under the destination with the entry's mode and bytes, every
regular file below the destination is one of them, and the path of every
directory entry is a directory. -/
def ZipExact (dest : Path) (entries : List ZipEntry) (fs : FS) : Prop :=
  (∀ f ∈ entries, f.isDir = false →
    (joinPath dest f.name).under dest ∧
    fs (joinPath dest f.name) = some (.file f.mode f.body)) ∧
  (∀ q m c, q.below dest → fs q = some (.file m c) →
    ∃ f ∈ entries, f.isDir = false ∧ joinPath dest f.name = q) ∧
  (∀ f ∈ entries, f.isDir = true → ∃ pm, stat fs (joinPath dest f.name) = some (.dir pm))

/-! ## Decidability of the path relations -/

instance (p d : Path) : Decidable (p.under d) :=
  inferInstanceAs (Decidable (p.rooted = d.rooted ∧ d.rev <:+ p.rev))

instance (p d : Path) : Decidable (p.below d) :=
  inferInstanceAs (Decidable (p.under d ∧ p ≠ d))

/-! ## Concrete inputs used by the examples -/

/-- The bytes of a text. -/
def bytes (s : String) : List Nat := s.data.map Char.toNat

/-- Source file holding a ZIP container with the given entries. -/
def zipSource (entries : List ZipEntry) : Source :=
  ⟨.ok entries, ⟨[], some (.decode "unexpected EOF")⟩, .error (.decode "gzip: invalid header")⟩

/-- Source file holding a plain TAR stream. -/
def tarSource (s : TarStream) : Source :=
  ⟨.error (.decode "zip: not a valid zip file"), s, .error (.decode "gzip: invalid header")⟩

/-- Source file holding a gzip-compressed TAR stream. -/
def gzipSource (s : TarStream) : Source :=
  ⟨.error (.decode "zip: not a valid zip file"), ⟨[], some (.decode "unexpected EOF")⟩, .ok s⟩

/-- Source file that is neither a ZIP container nor a gzip stream. -/
def plainSource : Source :=
  ⟨.error (.decode "zip: not a valid zip file"), ⟨[], some (.decode "unexpected EOF")⟩,
    .error (.decode "gzip: invalid header")⟩

/-- The only readable source file is `path`. -/
def oneSource (path : String) (s : Source) : String → Except Err Source :=
  fun p => if p = path then .ok s else .error .ENOENT

/-- The relative directory `d`. -/
def dirD : Path := relPath ["d"]

/-- File system in which only the directory `d` exists. -/
def fsWithD : FS := FS.empty.set dirD (.dir 0o755)

/-- World with the given file system and one readable source file. -/
def worldWith (fs : FS) (path : String) (s : Source) : World :=
  { fs := fs, sources := oneSource path s, handles := [], trace := [] }

/-- Regular-file entry of a ZIP container that opens and reads without error. -/
def zipFile (name : String) (mode : Nat) (body : List Nat) : ZipEntry :=
  ⟨name, false, mode, none, body, none⟩

/-- Directory entry of a ZIP container. -/
def zipDir (name : String) (mode : Nat) : ZipEntry :=
  ⟨name, true, mode, none, [], none⟩

/-- Regular-file item of a TAR stream whose body reads without error. -/
def tarFile (name : String) (mode : Nat) (body : List Nat) : TarItem :=
  .entry ⟨name, .reg, mode⟩ body none

/-- Directory item of a TAR stream. -/
def tarDir (name : String) (mode : Nat) : TarItem :=
  .entry ⟨name, .dir, mode⟩ [] none

/-- A file named `myzip` (no dot) that holds a ZIP container with one file. -/
def worldMyzip : World :=
  worldWith FS.empty "myzip" (zipSource [zipFile "a.txt" 0o644 (bytes "hi")])

/-- Directory `d` already holds `a.txt` with eleven bytes. -/
def fsLonger : FS :=
  fsWithD.set (relPath ["d", "a.txt"]) (.file 0o644 (bytes "hello world"))

/-- TAR stream with the single file `a.txt` of three bytes. -/
def streamBye : TarStream := ⟨[tarFile "a.txt" 0o644 (bytes "bye")], none⟩

/-- TAR stream of the scenario `notes.tar.gz`: `notes/a.txt`, then `notes/`. -/
def streamNotes : TarStream :=
  ⟨[tarFile "notes/a.txt" 0o644 (bytes "hello"), tarDir "notes/" 0o755], none⟩

/-- The same two entries with the directory first. -/
def streamNotesDirFirst : TarStream :=
  ⟨[tarDir "notes/" 0o755, tarFile "notes/a.txt" 0o644 (bytes "hello")], none⟩

/-- World with directory `d`, no source file, nothing open. -/
def worldD : World := { fs := fsWithD, sources := fun _ => .error .ENOENT, handles := [], trace := [] }

/-- World with nothing in it. -/
def worldEmpty : World :=
  { fs := FS.empty, sources := fun _ => .error .ENOENT, handles := [], trace := [] }

/-- TAR stream with no entry. -/
def streamNone : TarStream := ⟨[], none⟩

/-- ZIP entry and TAR stream whose stored name climbs out of the destination. -/
def zipClimb : ZipEntry := zipFile "../x" 0o644 (bytes "out")

/-- TAR stream whose only entry climbs out of the destination. -/
def streamClimb : TarStream := ⟨[tarFile "../x" 0o644 (bytes "out")], none⟩

/-- Directory `d` holds the longer `a.txt`; no source file. -/
def worldLonger : World := { worldD with fs := fsLonger }

/-- The same tree, with a ZIP container that holds the three-byte `a.txt`. -/
def worldByeZip : World :=
  worldWith fsLonger "a.zip" (zipSource [zipFile "a.txt" 0o644 (bytes "bye")])

/-- ZIP container of the scenario: `notes/a.txt`, then `notes/`. -/
def notesEntries : List ZipEntry :=
  [zipFile "notes/a.txt" 0o644 (bytes "hello"), zipDir "notes/" 0o755]

/-- Empty tree and the ZIP container of the scenario. -/
def worldNotesZip : World := worldWith FS.empty "n.zip" (zipSource notesEntries)

/-- Directory `d` and an empty gzip-compressed TAR file `a.tgz`. -/
def worldTgz : World := worldWith fsWithD "a.tgz" (gzipSource streamNone)

/-- Directory `d` and a file `b.tgz` that is not a gzip stream. -/
def worldBadTgz : World := worldWith fsWithD "b.tgz" plainSource

/-- Directory `d` and an empty TAR file `a.tar`. -/
def worldTar : World := worldWith fsWithD "a.tar" (tarSource streamNone)

/-- A file `x` next to the (absent) destination `d`. -/
def fsOutside : FS := FS.empty.set (relPath ["x"]) (.file 0o644 (bytes "old"))

/-- Regular-file entry `../x` with mode 0600. -/
def climbEntry : ZipEntry := zipFile "../x" 0o600 (bytes "new")

/-- The file `x` outside the destination and a ZIP container holding `../x`. -/
def worldClimbZip : World := worldWith fsOutside "c.zip" (zipSource [climbEntry])

/-- Directory `d` and a ZIP container whose only entry is `../x`. -/
def worldEscapeZip : World := worldWith fsWithD "e.zip" (zipSource [zipClimb])

/-- The two entries before the damaged one. -/
def fivePre : List ZipEntry :=
  [zipFile "1.txt" 0o644 (bytes "one"), zipFile "2.txt" 0o644 (bytes "two")]

/-- The third entry, whose reader cannot be opened. -/
def fiveBad : ZipEntry :=
  ⟨"3.txt", false, 0o644, some (.decode "zip: not a valid zip file"), bytes "three", none⟩

/-- The two entries after the damaged one. -/
def fivePost : List ZipEntry :=
  [zipFile "4.txt" 0o644 (bytes "four"), zipFile "5.txt" 0o644 (bytes "five")]

/-- Empty tree and the ZIP container of five entries whose third is damaged. -/
def worldFive : World :=
  worldWith FS.empty "p.zip" (zipSource (fivePre ++ fiveBad :: fivePost))

/-- TAR stream with the file `x` followed by the directory entry `x/`. -/
def streamFileThenDir : TarStream :=
  ⟨[tarFile "x" 0o644 (bytes "hi"), tarDir "x/" 0o755], none⟩

/-- Header of the directory entry `a/b/` with stored mode 0700. -/
def deepDirHeader : TarHeader := ⟨"a/b/", .dir, 0o700⟩

/-- TAR stream with the single directory entry `a/b/`. -/
def streamDeepDir : TarStream := ⟨[.entry deepDirHeader [] none], none⟩

/-! ## File-system lemmas -/

theorem stat_of_not_anchor {fs : FS} {p : Path} (h : p.isAnchor = false) : stat fs p = fs p := by
  simp [stat, h]

theorem stat_anchor {fs : FS} {p : Path} (h : p.isAnchor = true) :
    stat fs p = some (.dir 0o755) := by
  simp [stat, h]

theorem not_anchor_of_stat_none {fs : FS} {p : Path} (h : stat fs p = none) :
    p.isAnchor = false ∧ fs p = none := by
  unfold stat at h
  split at h
  · cases h
  · rename_i ha
    exact ⟨by simpa using ha, h⟩

theorem not_anchor_of_stat_file {fs : FS} {p : Path} {m : Nat} {c : List Nat}
    (h : stat fs p = some (.file m c)) : p.isAnchor = false ∧ fs p = some (.file m c) := by
  unfold stat at h
  split at h
  · cases h
  · rename_i ha
    exact ⟨by simpa using ha, h⟩

theorem set_same (fs : FS) (p : Path) (n : Node) : fs.set p n p = some n := by
  simp [FS.set]

theorem set_other (fs : FS) {p q : Path} (n : Node) (h : q ≠ p) : fs.set p n q = fs q := by
  simp [FS.set, h]

/-- What a successful `Mkdir` does. -/
theorem mkdir_ok {fs fs1 : FS} {p : Path} {perm : Nat} (h : mkdir fs p perm = .ok fs1) :
    stat fs p = none ∧ (∃ pm, stat fs p.parent = some (.dir pm)) ∧ fs1 = fs.set p (.dir perm) := by
  unfold mkdir at h
  split at h
  · cases h
  · rename_i hp
    split at h
    · rename_i pm hpar
      cases h
      exact ⟨hp, ⟨pm, hpar⟩, rfl⟩
    · cases h
    · cases h

/-- What the tail of `MkdirAll` does when it succeeds. -/
theorem mkdirChecked_ok {fs fs1 : FS} {p : Path} {perm : Nat}
    (h : mkdirChecked fs p perm = .ok fs1) :
    (fs1 = fs ∧ ∃ pm, stat fs p = some (.dir pm)) ∨
    (stat fs p = none ∧ (∃ pm, stat fs p.parent = some (.dir pm)) ∧
      fs1 = fs.set p (.dir perm)) := by
  unfold mkdirChecked at h
  split at h
  · rename_i fs2 hm
    cases h
    exact Or.inr (mkdir_ok hm)
  · split at h
    · rename_i pm hs
      cases h
      exact Or.inl ⟨rfl, pm, hs⟩
    · cases h

/-- A successful `MkdirAll` only adds directories, at paths that were absent and that are
the argument or one of its ancestors; afterwards the argument is a directory. -/
theorem mkdirAllRev_ok (rooted : Bool) (perm : Nat) :
    ∀ (l : List String) (fs fs1 : FS), mkdirAllRev rooted perm l fs = .ok fs1 →
      (∀ q, fs1 q = fs q ∨ (fs q = none ∧ fs1 q = some (.dir perm) ∧ q.rooted = rooted ∧
        q.rev <:+ l ∧ q.isAnchor = false)) ∧
      (∃ pm, stat fs1 ⟨rooted, l⟩ = some (.dir pm)) := by
  intro l
  induction l with
  | nil =>
    intro fs fs1 h
    simp only [mkdirAllRev] at h
    cases h
    exact ⟨fun q => Or.inl rfl, ⟨_, stat_anchor (by simp [Path.isAnchor])⟩⟩
  | cons c rest ih =>
    intro fs fs1 h
    simp only [mkdirAllRev] at h
    split at h
    · rename_i pm hs
      cases h
      exact ⟨fun q => Or.inl rfl, ⟨pm, hs⟩⟩
    · cases h
    · rename_i hs
      split at h
      · cases h
      · rename_i fs2 hrec
        obtain ⟨ihA, ihB⟩ := ih fs fs2 hrec
        rcases mkdirChecked_ok h with ⟨rfl, pm, hdir⟩ | ⟨hnone, _, rfl⟩
        · refine ⟨fun q => ?_, ⟨pm, hdir⟩⟩
          rcases ihA q with hq | ⟨h1, h2, h3, h4, h5⟩
          · exact Or.inl hq
          · exact Or.inr ⟨h1, h2, h3, h4.trans (List.suffix_cons c rest), h5⟩
        · obtain ⟨hanc, _⟩ := not_anchor_of_stat_none hnone
          obtain ⟨_, hfs⟩ := not_anchor_of_stat_none hs
          refine ⟨fun q => ?_, ⟨perm, ?_⟩⟩
          · by_cases hq : q = ⟨rooted, c :: rest⟩
            · subst hq
              exact Or.inr ⟨hfs, set_same _ _ _, rfl, List.suffix_refl _, hanc⟩
            · rw [set_other _ _ hq]
              rcases ihA q with hq1 | ⟨h1, h2, h3, h4, h5⟩
              · exact Or.inl hq1
              · exact Or.inr ⟨h1, h2, h3, h4.trans (List.suffix_cons c rest), h5⟩
          · rw [stat_of_not_anchor hanc, set_same]

theorem mkdirAll_ok {fs fs1 : FS} {p : Path} {perm : Nat} (h : mkdirAll fs p perm = .ok fs1) :
    (∀ q, fs1 q = fs q ∨ (fs q = none ∧ fs1 q = some (.dir perm) ∧ p.under q ∧
      q.isAnchor = false)) ∧
    (∃ pm, stat fs1 p = some (.dir pm)) := by
  obtain ⟨hA, hB⟩ := mkdirAllRev_ok p.rooted perm p.rev fs fs1 h
  refine ⟨fun q => ?_, hB⟩
  rcases hA q with hq | ⟨h1, h2, h3, h4, h5⟩
  · exact Or.inl hq
  · exact Or.inr ⟨h1, h2, ⟨h3.symm, h4⟩, h5⟩

/-- On an existing directory `MkdirAll` changes nothing. -/
theorem mkdirAll_of_dir {fs : FS} {p : Path} {perm pm : Nat}
    (h : stat fs p = some (.dir pm)) : mkdirAll fs p perm = .ok fs := by
  obtain ⟨r, l⟩ := p
  cases l with
  | nil => rfl
  | cons c rest => simp only [mkdirAll, mkdirAllRev, h]

/-! ## Overwriting from offset 0 -/

theorem overwrite_nil (body : List Nat) : overwrite body [] = body := by
  simp [overwrite]

theorem overwrite_overwrite (b1 b2 c : List Nat) :
    overwrite b2 (overwrite b1 c) = overwrite (overwrite b2 b1) c := by
  simp only [overwrite, List.drop_append_eq_append_drop, List.append_assoc, List.drop_drop,
    List.length_append, List.length_drop]
  congr 3
  omega

theorem overwrite_idem (b c : List Nat) : overwrite b (overwrite b c) = overwrite b c := by
  simp [overwrite]

theorem written_nil (q : Path) (c : List Nat) : written [] q c = c := rfl

theorem written_cons (wr : Option Write) (wrs : List (Option Write)) (q : Path) (c : List Nat) :
    written (wr :: wrs) q c = written wrs q (written [wr] q c) := rfl

theorem written_concat (wrs : List (Option Write)) (wr : Option Write) (q : Path) (c : List Nat) :
    written (wrs ++ [wr]) q c = written [wr] q (written wrs q c) := by
  simp [written, List.foldl_append]

/-- A sequence of writes acts on the bytes at a path as the identity, as a
constant, or as one overwrite from offset 0. -/
theorem written_shape (wrs : List (Option Write)) (q : Path) :
    (∀ c, written wrs q c = c) ∨ (∃ b, ∀ c, written wrs q c = b) ∨
    (∃ b, ∀ c, written wrs q c = overwrite b c) := by
  induction wrs using List.reverseRecOn with
  | nil => exact Or.inl fun c => rfl
  | append_singleton wrs wr ih =>
    cases wr with
    | none =>
      have h : ∀ c, written (wrs ++ [none]) q c = written wrs q c := fun c => by
        rw [written_concat]; rfl
      simpa only [h] using ih
    | some wr =>
      by_cases hq : wr.path = q
      · by_cases ht : wr.trunc = true
        · refine Or.inr (Or.inl ⟨wr.body, fun c => ?_⟩)
          rw [written_concat]
          simp [written, hq, Write.apply, ht]
        · have h : ∀ c, written (wrs ++ [some wr]) q c = overwrite wr.body (written wrs q c) :=
            fun c => by
              rw [written_concat]
              simp [written, hq, Write.apply, ht]
          rcases ih with h1 | ⟨b, h1⟩ | ⟨b, h1⟩
          · exact Or.inr (Or.inr ⟨wr.body, fun c => by rw [h, h1]⟩)
          · exact Or.inr (Or.inl ⟨overwrite wr.body b, fun c => by rw [h, h1]⟩)
          · exact Or.inr (Or.inr ⟨overwrite wr.body b, fun c => by
              rw [h, h1, overwrite_overwrite]⟩)
      · have h : ∀ c, written (wrs ++ [some wr]) q c = written wrs q c := fun c => by
          rw [written_concat]
          simp [written, hq]
        simpa only [h] using ih

/-- Carrying out the same sequence of writes twice gives the bytes of carrying
it out once. -/
theorem written_idem (wrs : List (Option Write)) (q : Path) (c : List Nat) :
    written wrs q (written wrs q c) = written wrs q c := by
  rcases written_shape wrs q with h | ⟨b, h⟩ | ⟨b, h⟩
  · rw [h, h]
  · rw [h, h]
  · rw [h, h, overwrite_idem]

/-! ## Keeping nodes -/

theorem FS.Ext.refl (fs : FS) : FS.Ext fs fs := fun _ n h => ⟨n, h, rfl⟩

theorem FS.Ext.trans {a b c : FS} (h1 : FS.Ext a b) (h2 : FS.Ext b c) : FS.Ext a c := by
  intro q n hq
  obtain ⟨n1, hn1, hk1⟩ := h1 q n hq
  obtain ⟨n2, hn2, hk2⟩ := h2 q n1 hn1
  exact ⟨n2, hn2, hk2.trans hk1⟩

theorem applyWrite_file {fs : FS} {wr : Write} {m : Nat} {c : List Nat}
    (h : fs wr.path = some (.file m c)) :
    applyWrite fs (some wr) = fs.set wr.path (.file m (wr.apply c)) := by
  simp only [applyWrite, h]

theorem applyWrite_no_file {fs : FS} {wr : Write}
    (h : ∀ m c, fs wr.path ≠ some (.file m c)) : applyWrite fs (some wr) = fs := by
  rcases hf : fs wr.path with _ | (m | ⟨m, c⟩)
  · simp only [applyWrite, hf]
  · simp only [applyWrite, hf]
  · exact absurd hf (h m c)

theorem ext_applyWrite (fs : FS) (wr : Option Write) : FS.Ext fs (applyWrite fs wr) := by
  cases wr with
  | none => exact FS.Ext.refl fs
  | some wr =>
    intro q n hq
    by_cases hf : ∃ m c, fs wr.path = some (.file m c)
    · obtain ⟨m, c, hf⟩ := hf
      rw [applyWrite_file hf]
      by_cases h : q = wr.path
      · subst h
        rw [hf] at hq
        cases hq
        exact ⟨_, set_same _ _ _, rfl⟩
      · exact ⟨n, by rw [set_other _ _ h]; exact hq, rfl⟩
    · rw [applyWrite_no_file (fun m c h => hf ⟨m, c, h⟩)]
      exact ⟨n, hq, rfl⟩

theorem stat_dir_of_ext {fs fs1 : FS} (h : FS.Ext fs fs1) {p : Path} {pm : Nat}
    (hp : stat fs p = some (.dir pm)) : ∃ pm1, stat fs1 p = some (.dir pm1) := by
  by_cases ha : p.isAnchor = true
  · exact ⟨_, stat_anchor ha⟩
  · have ha : p.isAnchor = false := by simpa using ha
    rw [stat_of_not_anchor ha] at hp ⊢
    obtain ⟨n1, hn1, hk⟩ := h p _ hp
    cases n1 with
    | dir m1 => exact ⟨m1, hn1⟩
    | file m1 c1 => simp [Node.isDir] at hk

theorem stat_file_of_ext {fs fs1 : FS} (h : FS.Ext fs fs1) {p : Path} {m : Nat} {c : List Nat}
    (hp : stat fs p = some (.file m c)) : ∃ m1 c1, stat fs1 p = some (.file m1 c1) := by
  obtain ⟨ha, hf⟩ := not_anchor_of_stat_file hp
  rw [stat_of_not_anchor ha]
  obtain ⟨n1, hn1, hk⟩ := h p _ hf
  cases n1 with
  | dir m1 => simp [Node.isDir] at hk
  | file m1 c1 => exact ⟨m1, c1, hn1⟩

theorem stat_some_of_ext {fs fs1 : FS} (h : FS.Ext fs fs1) {p : Path} {n : Node}
    (hp : stat fs p = some n) : ∃ n1, stat fs1 p = some n1 := by
  cases n with
  | dir m => obtain ⟨m1, h1⟩ := stat_dir_of_ext h hp; exact ⟨_, h1⟩
  | file m c => obtain ⟨m1, c1, h1⟩ := stat_file_of_ext h hp; exact ⟨_, h1⟩

/-! ## Loops of good rounds -/

theorem applyWrite_at (fs : FS) (wr : Option Write) (q : Path) :
    (∀ m c, fs q = some (.file m c) →
      applyWrite fs wr q = some (.file m (written [wr] q c))) ∧
    ((∀ m c, fs q ≠ some (.file m c)) → applyWrite fs wr q = fs q) := by
  cases wr with
  | none => exact ⟨fun m c h => h, fun _ => rfl⟩
  | some wr =>
    by_cases hf : ∃ m c, fs wr.path = some (.file m c)
    · obtain ⟨m0, c0, hf⟩ := hf
      rw [applyWrite_file hf]
      by_cases hq : q = wr.path
      · subst hq
        refine ⟨fun m c h => ?_, fun h => absurd hf (h m0 c0)⟩
        rw [hf] at h
        cases h
        simp [FS.set, written]
      · have hq1 : ¬ wr.path = q := fun h => hq h.symm
        refine ⟨fun m c h => ?_, fun _ => set_other _ _ hq⟩
        rw [set_other _ _ hq, h]
        simp [written, hq1]
    · have hno : ∀ m c, fs wr.path ≠ some (.file m c) := fun m c h => hf ⟨m, c, h⟩
      rw [applyWrite_no_file hno]
      refine ⟨fun m c h => ?_, fun _ => rfl⟩
      have hq1 : ¬ wr.path = q := fun h1 => hno m c (h1 ▸ h)
      rw [h]
      simp [written, hq1]

theorem foldl_applyWrite_at (wrs : List (Option Write)) :
    ∀ (fs : FS) (q : Path),
      (∀ m c, fs q = some (.file m c) →
        wrs.foldl applyWrite fs q = some (.file m (written wrs q c))) ∧
      ((∀ m c, fs q ≠ some (.file m c)) → wrs.foldl applyWrite fs q = fs q) := by
  induction wrs with
  | nil => exact fun fs q => ⟨fun m c h => h, fun _ => rfl⟩
  | cons wr wrs ih =>
    intro fs q
    obtain ⟨h1, h2⟩ := applyWrite_at fs wr q
    obtain ⟨i1, i2⟩ := ih (applyWrite fs wr) q
    refine ⟨fun m c h => ?_, fun h => ?_⟩
    · rw [List.foldl_cons, i1 m _ (h1 m c h)]
      rfl
    · rw [List.foldl_cons, i2 (fun m c hc => h m c (by rw [← h2 h]; exact hc)), h2 h]

theorem runRounds_cons_ok {r : Round} {rs : List Round} {w w1 : World}
    (h : runRounds (r :: rs) w = (none, w1)) :
    ∃ w2, r w = (none, w2) ∧ runRounds rs w2 = (none, w1) := by
  simp only [runRounds] at h
  rcases hr : r w with ⟨_ | e, w2⟩
  · rw [hr] at h
    exact ⟨w2, rfl, h⟩
  · rw [hr] at h
    cases h

theorem runRounds_keeps (rws : List (Round × Option Write))
    (hg : ∀ rw ∈ rws, GoodRound rw.1 rw.2) :
    ∀ w w1, runRounds (rws.map Prod.fst) w = (none, w1) →
      FS.Ext w.fs w1.fs ∧
      ∀ q, contentAt w1.fs q = written (rws.map Prod.snd) q (contentAt w.fs q) := by
  induction rws with
  | nil =>
    intro w w1 h
    simp only [List.map_nil, runRounds] at h
    cases h
    exact ⟨FS.Ext.refl _, fun q => rfl⟩
  | cons rw rws ih =>
    intro w w1 h
    obtain ⟨w2, h1, h2⟩ := runRounds_cons_ok h
    obtain ⟨e1, c1, _⟩ := hg rw (List.mem_cons_self _ _) w w2 h1
    obtain ⟨e2, c2⟩ := ih (fun x hx => hg x (List.mem_cons_of_mem _ hx)) w2 w1 h2
    refine ⟨e1.trans e2, fun q => ?_⟩
    rw [c2 q, c1 q]
    rfl

theorem runRounds_replay (rws : List (Round × Option Write))
    (hg : ∀ rw ∈ rws, GoodRound rw.1 rw.2) :
    ∀ w w1, runRounds (rws.map Prod.fst) w = (none, w1) →
      ∀ T : World, FS.Ext w1.fs T.fs →
        ∃ T1, runRounds (rws.map Prod.fst) T = (none, T1) ∧
          T1.fs = (rws.map Prod.snd).foldl applyWrite T.fs := by
  induction rws with
  | nil =>
    intro w w1 _ T _
    exact ⟨T, rfl, rfl⟩
  | cons rw rws ih =>
    intro w w1 h T hT
    obtain ⟨w2, h1, h2⟩ := runRounds_cons_ok h
    have hrest : ∀ x ∈ rws, GoodRound x.1 x.2 := fun x hx => hg x (List.mem_cons_of_mem _ hx)
    obtain ⟨_, _, rep⟩ := hg rw (List.mem_cons_self _ _) w w2 h1
    obtain ⟨e2, _⟩ := runRounds_keeps rws hrest w2 w1 h2
    obtain ⟨T2, hT2, hfs2⟩ := rep T (e2.trans hT)
    have hext : FS.Ext w1.fs T2.fs := by
      rw [hfs2]
      exact hT.trans (ext_applyWrite _ _)
    obtain ⟨T1, hT1, hfs1⟩ := ih hrest w2 w1 h2 T2 hext
    refine ⟨T1, ?_, ?_⟩
    · simp only [List.map_cons, runRounds, hT2]
      exact hT1
    · rw [hfs1, hfs2]
      rfl

/-- A loop of good rounds that succeeded succeeds again on the file system it
left, and leaves it as it is. -/
theorem runRounds_again (rws : List (Round × Option Write))
    (hg : ∀ rw ∈ rws, GoodRound rw.1 rw.2) (w w1 : World)
    (h : runRounds (rws.map Prod.fst) w = (none, w1)) (T : World) (hT : T.fs = w1.fs) :
    ∃ T1, runRounds (rws.map Prod.fst) T = (none, T1) ∧ T1.fs = w1.fs := by
  obtain ⟨T1, hT1, hfs⟩ := runRounds_replay rws hg w w1 h T (by rw [hT]; exact FS.Ext.refl _)
  obtain ⟨_, hc⟩ := runRounds_keeps rws hg w w1 h
  refine ⟨T1, hT1, ?_⟩
  rw [hfs, hT]
  funext q
  obtain ⟨f1, f2⟩ := foldl_applyWrite_at (rws.map Prod.snd) w1.fs q
  by_cases hf : ∃ m c, w1.fs q = some (.file m c)
  · obtain ⟨m, c, hf⟩ := hf
    have hcq : contentAt w1.fs q = c := by simp [contentAt, hf]
    rw [f1 m c hf, hf, ← hcq, hc q, written_idem]
  · exact f2 (fun m c h => hf ⟨m, c, h⟩)

/-! ## Opening and writing a file -/

theorem set_set (fs : FS) (p : Path) (a b : Node) : (fs.set p a).set p b = fs.set p b := by
  funext q
  by_cases h : q = p <;> simp [FS.set, h]

theorem writeFile_set (fs : FS) (p : Path) (m : Nat) (c body : List Nat) :
    writeFile (fs.set p (.file m c)) p body = fs.set p (.file m (overwrite body c)) := by
  simp only [writeFile, set_same, set_set]

theorem writeFile_file {fs : FS} {p : Path} {m : Nat} {c : List Nat} (body : List Nat)
    (h : fs p = some (.file m c)) :
    writeFile fs p body = fs.set p (.file m (overwrite body c)) := by
  simp only [writeFile, h]

/-- What `OpenFile` followed by the copy does when the open succeeds. -/
theorem open_write_ok {fs fs1 : FS} {p : Path} {trunc : Bool} {perm : Nat} (body : List Nat)
    (h : openFile fs p trunc perm = .ok fs1) :
    p.isAnchor = false ∧
    ((∃ m0 c0, fs p = some (.file m0 c0) ∧
        writeFile fs1 p body = fs.set p (.file m0 (Write.apply ⟨p, body, trunc⟩ c0))) ∨
     (fs p = none ∧ (∃ pm, stat fs p.parent = some (.dir pm)) ∧
        writeFile fs1 p body = fs.set p (.file perm body))) := by
  unfold openFile at h
  split at h
  · cases h
  · rename_i m c hs
    obtain ⟨ha, hf⟩ := not_anchor_of_stat_file hs
    refine ⟨ha, Or.inl ⟨m, c, hf, ?_⟩⟩
    cases h
    cases trunc with
    | true => simp [writeFile_set, Write.apply, overwrite_nil]
    | false => simp [writeFile_file body hf, Write.apply]
  · rename_i hs
    obtain ⟨ha, hf⟩ := not_anchor_of_stat_none hs
    split at h
    · rename_i pm hpar
      cases h
      exact ⟨ha, Or.inr ⟨hf, ⟨pm, hpar⟩, by rw [writeFile_set, overwrite_nil]⟩⟩
    · cases h
    · cases h

/-- Opening and writing a file that exists succeeds and is just the write. -/
theorem open_write_again {T : FS} {p : Path} {m : Nat} {c : List Nat} (ha : p.isAnchor = false)
    (hf : T p = some (.file m c)) (trunc : Bool) (perm : Nat) (body : List Nat) :
    ∃ T1, openFile T p trunc perm = .ok T1 ∧
      writeFile T1 p body = applyWrite T (some ⟨p, body, trunc⟩) := by
  have hs : stat T p = some (.file m c) := by rw [stat_of_not_anchor ha, hf]
  refine ⟨if trunc then T.set p (.file m []) else T, by simp only [openFile, hs], ?_⟩
  rw [@applyWrite_file T ⟨p, body, trunc⟩ m c hf]
  cases trunc with
  | true => simp [writeFile_set, Write.apply, overwrite_nil]
  | false => simp [writeFile_file body hf, Write.apply]

theorem contentAt_set_file (fs : FS) (p : Path) (m : Nat) (c : List Nat) :
    contentAt (fs.set p (.file m c)) p = c := by
  simp [contentAt, FS.set]

theorem contentAt_set_other (fs : FS) {p q : Path} (n : Node) (h : q ≠ p) :
    contentAt (fs.set p n) q = contentAt fs q := by
  simp [contentAt, FS.set, h]

theorem ext_set_of_none {fs : FS} {p : Path} (n : Node) (h : fs p = none) :
    FS.Ext fs (fs.set p n) := by
  intro q k hq
  have : q ≠ p := fun e => by rw [e, h] at hq; cases hq
  exact ⟨k, by rw [set_other _ _ this]; exact hq, rfl⟩

theorem ext_set_file {fs : FS} {p : Path} {m0 : Nat} {c0 : List Nat} (m : Nat) (c : List Nat)
    (h : fs p = some (.file m0 c0)) : FS.Ext fs (fs.set p (.file m c)) := by
  intro q k hq
  by_cases e : q = p
  · subst e
    rw [h] at hq
    cases hq
    exact ⟨_, set_same _ _ _, rfl⟩
  · exact ⟨k, by rw [set_other _ _ e]; exact hq, rfl⟩

/-- A successful `MkdirAll` keeps every node and the bytes of every file. -/
theorem mkdirAll_keeps {fs fs1 : FS} {p : Path} {perm : Nat}
    (h : mkdirAll fs p perm = .ok fs1) :
    FS.Ext fs fs1 ∧ ∀ q, contentAt fs1 q = contentAt fs q := by
  obtain ⟨hA, _⟩ := mkdirAll_ok h
  refine ⟨fun q n hq => ?_, fun q => ?_⟩
  · rcases hA q with e | ⟨e, _⟩
    · exact ⟨n, by rw [e]; exact hq, rfl⟩
    · rw [e] at hq; cases hq
  · rcases hA q with e | ⟨e, e1, _⟩
    · simp only [contentAt, e]
    · simp only [contentAt, e, e1]

/-! ## The round of `unzip` -/

/-- A successful round of `unzip`, read backwards. -/
theorem zipRound_ok {dest : Path} {f : ZipEntry} {w w1 : World}
    (h : extractAndWriteFile dest w f = (none, w1)) :
    f.openErr = none ∧ w1.sources = w.sources ∧
    ((f.isDir = true ∧ mkdirAll w.fs (joinPath dest f.name) f.mode = .ok w1.fs) ∨
     (f.isDir = false ∧ f.copyErr = none ∧ ∃ fs1 fs2,
        mkdirAll w.fs (joinPath dest f.name).parent f.mode = .ok fs1 ∧
        openFile fs1 (joinPath dest f.name) true f.mode = .ok fs2 ∧
        w1.fs = writeFile fs2 (joinPath dest f.name) f.body)) := by
  unfold extractAndWriteFile at h
  split at h
  · cases h
  · rename_i ho
    refine ⟨ho, ?_⟩
    simp only at h
    split at h
    · rename_i hd
      split at h
      · cases h
      · rename_i fs1 hm
        cases h
        exact ⟨rfl, Or.inl ⟨hd, hm⟩⟩
    · rename_i hd
      split at h
      · cases h
      · rename_i fs1 hm
        split at h
        · cases h
        · rename_i fs2 hop
          simp only [Prod.mk.injEq] at h
          obtain ⟨hc, hw⟩ := h
          subst hw
          exact ⟨rfl, Or.inr ⟨by simpa using hd, hc, fs1, fs2, hm, hop, rfl⟩⟩

/-- A round of `unzip` on a directory entry, read forwards. -/
theorem zipRound_dir {dest : Path} {f : ZipEntry} {T : World} {fs1 : FS}
    (ho : f.openErr = none) (hd : f.isDir = true)
    (hm : mkdirAll T.fs (joinPath dest f.name) f.mode = .ok fs1) :
    ∃ T1, extractAndWriteFile dest T f = (none, T1) ∧ T1.fs = fs1 := by
  refine ⟨T.withFs fs1, ?_, rfl⟩
  simp only [extractAndWriteFile, ho, hd, if_true, hm]

/-- A round of `unzip` on a regular-file entry, read forwards. -/
theorem zipRound_file {dest : Path} {f : ZipEntry} {T : World} {fs1 fs2 : FS}
    (ho : f.openErr = none) (hd : f.isDir = false) (hc : f.copyErr = none)
    (hm : mkdirAll T.fs (joinPath dest f.name).parent f.mode = .ok fs1)
    (hop : openFile fs1 (joinPath dest f.name) true f.mode = .ok fs2) :
    ∃ T1, extractAndWriteFile dest T f = (none, T1) ∧
      T1.fs = writeFile fs2 (joinPath dest f.name) f.body := by
  refine ⟨((((T.withFs fs2).acquire (.dst (joinPath dest f.name))).withFs
    (writeFile fs2 (joinPath dest f.name) f.body)).release (.dst (joinPath dest f.name))),
    ?_, rfl⟩
  simp only [extractAndWriteFile, ho, hd, Bool.false_eq_true, if_false, hm, hop, hc]
  rfl

theorem zipRound_good (dest : Path) (f : ZipEntry) :
    GoodRound (zipRound dest f) (zipWrite dest f) := by
  intro w w1 h
  obtain ⟨ho, _, hcase⟩ := zipRound_ok h
  rcases hcase with ⟨hd, hm⟩ | ⟨hd, hc, fs1, fs2, hm, hop, hfs⟩
  · have hw : zipWrite dest f = none := by simp [zipWrite, hd]
    obtain ⟨hext, hcont⟩ := mkdirAll_keeps hm
    obtain ⟨_, pm, hdir⟩ := mkdirAll_ok hm
    rw [hw]
    refine ⟨hext, fun q => hcont q, fun T hT => ?_⟩
    obtain ⟨pm1, hdir1⟩ := stat_dir_of_ext hT hdir
    exact zipRound_dir ho hd (mkdirAll_of_dir hdir1)
  · have hw : zipWrite dest f = some ⟨joinPath dest f.name, f.body, true⟩ := by
      simp [zipWrite, hd]
    obtain ⟨hext, hcont⟩ := mkdirAll_keeps hm
    obtain ⟨_, pm, hdir⟩ := mkdirAll_ok hm
    obtain ⟨ha, hopw⟩ := open_write_ok f.body hop
    rw [hw, hfs]
    rcases hopw with ⟨m0, c0, hf, hwr⟩ | ⟨hnone, _, hwr⟩
    · rw [hwr]
      refine ⟨hext.trans (ext_set_file _ _ hf), fun q => ?_, fun T hT => ?_⟩
      · by_cases hq : q = joinPath dest f.name
        · subst hq
          rw [contentAt_set_file]
          simp [written, Write.apply]
        · have hq1 : ¬ joinPath dest f.name = q := fun e => hq e.symm
          rw [contentAt_set_other _ _ hq, hcont q]
          simp [written, hq1]
      · obtain ⟨pm1, hdir1⟩ := stat_dir_of_ext ((ext_set_file _ _ hf).trans hT) hdir
        obtain ⟨n1, hn1, hk⟩ := hT (joinPath dest f.name) _ (set_same _ _ _)
        cases n1 with
        | dir m1 => simp [Node.isDir] at hk
        | file m1 c1 =>
          obtain ⟨T1, hT1, hw1⟩ := open_write_again ha hn1 true f.mode f.body
          obtain ⟨T2, hT2, hfs2⟩ := zipRound_file ho hd hc (mkdirAll_of_dir hdir1) hT1
          exact ⟨T2, hT2, by rw [hfs2, hw1]⟩
    · rw [hwr]
      have hc0 : contentAt fs1 (joinPath dest f.name) = [] := by simp [contentAt, hnone]
      refine ⟨hext.trans (ext_set_of_none _ hnone), fun q => ?_, fun T hT => ?_⟩
      · by_cases hq : q = joinPath dest f.name
        · subst hq
          rw [contentAt_set_file]
          simp [written, Write.apply]
        · have hq1 : ¬ joinPath dest f.name = q := fun e => hq e.symm
          rw [contentAt_set_other _ _ hq, hcont q]
          simp [written, hq1]
      · obtain ⟨pm1, hdir1⟩ :=
          stat_dir_of_ext ((ext_set_of_none _ hnone).trans hT) hdir
        obtain ⟨n1, hn1, hk⟩ := hT (joinPath dest f.name) _ (set_same _ _ _)
        cases n1 with
        | dir m1 => simp [Node.isDir] at hk
        | file m1 c1 =>
          obtain ⟨T1, hT1, hw1⟩ := open_write_again ha hn1 true f.mode f.body
          obtain ⟨T2, hT2, hfs2⟩ := zipRound_file ho hd hc (mkdirAll_of_dir hdir1) hT1
          exact ⟨T2, hT2, by rw [hfs2, hw1]⟩

/-! ## The round of `untar` -/

/-- A successful round of `untar`, read backwards. -/
theorem untarEntry_ok {dst : Path} {h : TarHeader} {body : List Nat} {copyErr : Option Err}
    {w w1 : World} (hr : untarEntry dst w h body copyErr = (none, w1)) :
    w1.sources = w.sources ∧
    ((h.typeflag = .dir ∧ (∃ n, stat w.fs (joinPath dst h.name) = some n) ∧ w1 = w) ∨
     (h.typeflag = .dir ∧ stat w.fs (joinPath dst h.name) = none ∧
        mkdirAll w.fs (joinPath dst h.name) 0o755 = .ok w1.fs) ∨
     (h.typeflag = .reg ∧ copyErr = none ∧ ∃ fs1,
        openFile w.fs (joinPath dst h.name) false h.mode = .ok fs1 ∧
        w1.fs = writeFile fs1 (joinPath dst h.name) body) ∨
     (h.typeflag = .other ∧ w1 = w)) := by
  unfold untarEntry at hr
  simp only at hr
  split at hr
  · rename_i ht
    split at hr
    · rename_i n hs
      cases hr
      exact ⟨rfl, Or.inl ⟨ht, ⟨n, hs⟩, rfl⟩⟩
    · rename_i hs
      split at hr
      · cases hr
      · rename_i fs1 hm
        cases hr
        exact ⟨rfl, Or.inr (Or.inl ⟨ht, hs, hm⟩)⟩
  · rename_i ht
    split at hr
    · cases hr
    · rename_i fs1 hop
      split at hr
      · cases hr
      · cases hr
        exact ⟨rfl, Or.inr (Or.inr (Or.inl ⟨ht, rfl, fs1, hop, rfl⟩))⟩
  · rename_i ht
    cases hr
    exact ⟨rfl, Or.inr (Or.inr (Or.inr ⟨ht, rfl⟩))⟩

/-- A round of `untar` on a directory entry whose path exists changes nothing. -/
theorem untarEntry_dir_exists {dst : Path} {h : TarHeader} (body : List Nat)
    (copyErr : Option Err) {T : World} {n : Node} (ht : h.typeflag = .dir)
    (hs : stat T.fs (joinPath dst h.name) = some n) :
    untarEntry dst T h body copyErr = (none, T) := by
  simp only [untarEntry, ht, hs]

/-- A round of `untar` on a regular-file entry, read forwards. -/
theorem untarEntry_file {dst : Path} {h : TarHeader} (body : List Nat) {T : World} {fs1 : FS}
    (ht : h.typeflag = .reg)
    (hop : openFile T.fs (joinPath dst h.name) false h.mode = .ok fs1) :
    ∃ T1, untarEntry dst T h body none = (none, T1) ∧
      T1.fs = writeFile fs1 (joinPath dst h.name) body := by
  refine ⟨((((T.withFs fs1).acquire (.dst (joinPath dst h.name))).withFs
    (writeFile fs1 (joinPath dst h.name) body)).release (.dst (joinPath dst h.name))),
    ?_, rfl⟩
  simp only [untarEntry, ht, hop]
  rfl

theorem tarRound_good (dst : Path) (it : TarItem) :
    GoodRound (tarRound dst it) (tarWrite dst it) := by
  cases it with
  | nilHeader =>
    intro w w1 h
    simp only [tarRound, Prod.mk.injEq, true_and] at h
    subst h
    exact ⟨FS.Ext.refl _, fun q => rfl, fun T _ => ⟨T, rfl, rfl⟩⟩
  | entry h body copyErr =>
    intro w w1 hr
    obtain ⟨_, hcase⟩ := untarEntry_ok hr
    rcases hcase with ⟨ht, ⟨n, hs⟩, rfl⟩ | ⟨ht, hs, hm⟩ | ⟨ht, hc, fs1, hop, hfs⟩ | ⟨ht, rfl⟩
    · have hw : tarWrite dst (.entry h body copyErr) = none := by simp [tarWrite, ht]
      rw [hw]
      refine ⟨FS.Ext.refl _, fun q => rfl, fun T hT => ?_⟩
      obtain ⟨n1, hn1⟩ := stat_some_of_ext hT hs
      exact ⟨T, untarEntry_dir_exists body copyErr ht hn1, rfl⟩
    · have hw : tarWrite dst (.entry h body copyErr) = none := by simp [tarWrite, ht]
      obtain ⟨hext, hcont⟩ := mkdirAll_keeps hm
      obtain ⟨_, pm, hdir⟩ := mkdirAll_ok hm
      rw [hw]
      refine ⟨hext, fun q => hcont q, fun T hT => ?_⟩
      obtain ⟨pm1, hdir1⟩ := stat_dir_of_ext hT hdir
      exact ⟨T, untarEntry_dir_exists body copyErr ht hdir1, rfl⟩
    · have hw : tarWrite dst (.entry h body copyErr) =
          some ⟨joinPath dst h.name, body, false⟩ := by simp [tarWrite, ht]
      subst hc
      obtain ⟨ha, hopw⟩ := open_write_ok body hop
      rw [hw, hfs]
      have key : ∀ (m : Nat) (c : List Nat),
          c = Write.apply ⟨joinPath dst h.name, body, false⟩ (contentAt w.fs (joinPath dst h.name)) →
          FS.Ext w.fs (w.fs.set (joinPath dst h.name) (.file m c)) →
          FS.Ext w.fs (w.fs.set (joinPath dst h.name) (.file m c)) ∧
          (∀ q, contentAt (w.fs.set (joinPath dst h.name) (.file m c)) q =
            written [some ⟨joinPath dst h.name, body, false⟩] q (contentAt w.fs q)) ∧
          (∀ T : World, FS.Ext (w.fs.set (joinPath dst h.name) (.file m c)) T.fs →
            ∃ T1, tarRound dst (.entry h body none) T = (none, T1) ∧
              T1.fs = applyWrite T.fs (some ⟨joinPath dst h.name, body, false⟩)) := by
        intro m c hc hext
        refine ⟨hext, fun q => ?_, fun T hT => ?_⟩
        · by_cases hq : q = joinPath dst h.name
          · subst hq
            rw [contentAt_set_file, hc]
            simp [written]
          · have hq1 : ¬ joinPath dst h.name = q := fun e => hq e.symm
            rw [contentAt_set_other _ _ hq]
            simp [written, hq1]
        · obtain ⟨n1, hn1, hk⟩ := hT (joinPath dst h.name) _ (set_same _ _ _)
          cases n1 with
          | dir m1 => simp [Node.isDir] at hk
          | file m1 c1 =>
            obtain ⟨T1, hT1, hw1⟩ := open_write_again ha hn1 false h.mode body
            obtain ⟨T2, hT2, hfs2⟩ := untarEntry_file body ht hT1
            exact ⟨T2, hT2, by rw [hfs2, hw1]⟩
      rcases hopw with ⟨m0, c0, hf, hwr⟩ | ⟨hnone, _, hwr⟩
      · rw [hwr]
        exact key _ _ (by simp [contentAt, hf]) (ext_set_file _ _ hf)
      · rw [hwr]
        exact key _ _ (by simp [contentAt, hnone, Write.apply, overwrite_nil])
          (ext_set_of_none _ hnone)
    · have hw : tarWrite dst (.entry h body copyErr) = none := by simp [tarWrite, ht]
      rw [hw]
      refine ⟨FS.Ext.refl _, fun q => rfl, fun T _ => ⟨T, ?_, rfl⟩⟩
      simp only [tarRound, untarEntry, ht]

/-! ## The loops as sequences of rounds -/

theorem unzipLoop_eq (dest : Path) (entries : List ZipEntry) (w : World) :
    unzipLoop dest entries w =
      runRounds ((entries.map fun f => (zipRound dest f, zipWrite dest f)).map Prod.fst) w := by
  induction entries generalizing w with
  | nil => rfl
  | cons f rest ih =>
    simp only [unzipLoop, List.map_cons, runRounds, zipRound]
    rcases extractAndWriteFile dest w f with ⟨_ | e, w1⟩
    · exact ih w1
    · rfl

theorem untarLoop_eq (dst : Path) (items : List TarItem) (w : World) :
    untarLoop dst none items w =
      runRounds ((items.map fun it => (tarRound dst it, tarWrite dst it)).map Prod.fst) w := by
  induction items generalizing w with
  | nil => rfl
  | cons it rest ih =>
    cases it with
    | nilHeader =>
      simp only [untarLoop, List.map_cons, runRounds, tarRound]
      exact ih w
    | entry h body copyErr =>
      simp only [untarLoop, List.map_cons, runRounds, tarRound]
      rcases untarEntry dst w h body copyErr with ⟨_ | e, w1⟩
      · exact ih w1
      · rfl

/-- A loop of `untar` that ends without error met `io.EOF`. -/
theorem untarLoop_final (dst : Path) (final : Option Err) (items : List TarItem) (w w1 : World)
    (h : untarLoop dst final items w = (none, w1)) : final = none := by
  induction items generalizing w with
  | nil =>
    simp only [untarLoop, Prod.mk.injEq] at h
    exact h.1
  | cons it rest ih =>
    cases it with
    | nilHeader => exact ih w h
    | entry hd body copyErr =>
      simp only [untarLoop] at h
      rcases hr : untarEntry dst w hd body copyErr with ⟨_ | e, w2⟩
      · rw [hr] at h
        exact ih w2 h
      · rw [hr] at h
        cases h

/-! ## Running an extractor again -/

theorem unzipLoop_sources (dest : Path) (entries : List ZipEntry) (w w1 : World)
    (h : unzipLoop dest entries w = (none, w1)) : w1.sources = w.sources := by
  induction entries generalizing w with
  | nil =>
    simp only [unzipLoop, Prod.mk.injEq, true_and] at h
    rw [h]
  | cons f rest ih =>
    simp only [unzipLoop] at h
    rcases hr : extractAndWriteFile dest w f with ⟨_ | e, w2⟩
    · rw [hr] at h
      rw [ih w2 h, (zipRound_ok hr).2.1]
    · rw [hr] at h
      cases h

theorem untarLoop_sources (dst : Path) (final : Option Err) (items : List TarItem)
    (w w1 : World) (h : untarLoop dst final items w = (none, w1)) : w1.sources = w.sources := by
  induction items generalizing w with
  | nil =>
    simp only [untarLoop, Prod.mk.injEq] at h
    rw [h.2]
  | cons it rest ih =>
    cases it with
    | nilHeader => exact ih w h
    | entry hd body copyErr =>
      simp only [untarLoop] at h
      rcases hr : untarEntry dst w hd body copyErr with ⟨_ | e, w2⟩
      · rw [hr] at h
        rw [ih w2 h, (untarEntry_ok hr).1]
      · rw [hr] at h
        cases h

theorem zipRounds_good (dest : Path) (entries : List ZipEntry) :
    ∀ rw ∈ entries.map (fun f => (zipRound dest f, zipWrite dest f)), GoodRound rw.1 rw.2 := by
  intro rw hrw
  obtain ⟨f, _, rfl⟩ := List.mem_map.mp hrw
  exact zipRound_good dest f

theorem tarRounds_good (dst : Path) (items : List TarItem) :
    ∀ rw ∈ items.map (fun it => (tarRound dst it, tarWrite dst it)), GoodRound rw.1 rw.2 := by
  intro rw hrw
  obtain ⟨it, _, rfl⟩ := List.mem_map.mp hrw
  exact tarRound_good dst it

/-- A successful `unzip`, read backwards. -/
theorem unzip_ok {w : World} {src : String} {dest : Path}
    (h : (unzip w src dest).1 = none) :
    ∃ s entries fs1 w2, w.sources src = .ok s ∧ s.zip = .ok entries ∧
      mkdirAll w.fs dest 0o755 = .ok fs1 ∧
      unzipLoop dest entries (((w.emit (.unzipCalled src dest)).acquire (.src src)).withFs fs1)
        = (none, w2) ∧
      unzip w src dest = (none, w2.release (.src src)) := by
  unfold unzip at h ⊢
  simp only at h ⊢
  have hsrc : (w.emit (.unzipCalled src dest)).sources src = w.sources src := rfl
  rw [hsrc] at h ⊢
  rcases hs : w.sources src with e | s
  · rw [hs] at h; cases h
  · rw [hs] at h
    simp only at h ⊢
    rcases hz : s.zip with e | entries
    · rw [hz] at h; cases h
    · rw [hz] at h
      simp only at h ⊢
      have hfs : ((w.emit (.unzipCalled src dest)).acquire (.src src)).fs = w.fs := rfl
      rw [hfs] at h ⊢
      rcases hm : mkdirAll w.fs dest 0o755 with e | fs1
      · rw [hm] at h; cases h
      · rw [hm] at h
        simp only at h ⊢
        rcases hl : unzipLoop dest entries
          (((w.emit (.unzipCalled src dest)).acquire (.src src)).withFs fs1) with ⟨r, w2⟩
        rw [hl] at h
        simp only at h
        subst h
        exact ⟨s, entries, fs1, w2, rfl, hz, rfl, hl, rfl⟩

/-- The function `unzip`, read forwards. -/
theorem unzip_run {w : World} {src : String} {dest : Path} {s : Source}
    {entries : List ZipEntry} {fs1 : FS} (hs : w.sources src = .ok s) (hz : s.zip = .ok entries)
    (hm : mkdirAll w.fs dest 0o755 = .ok fs1) :
    unzip w src dest =
      ((unzipLoop dest entries
          (((w.emit (.unzipCalled src dest)).acquire (.src src)).withFs fs1)).1,
       (unzipLoop dest entries
          (((w.emit (.unzipCalled src dest)).acquire (.src src)).withFs fs1)).2.release
            (.src src)) := by
  unfold unzip
  simp only
  have hsrc : (w.emit (.unzipCalled src dest)).sources src = w.sources src := rfl
  have hfs : ((w.emit (.unzipCalled src dest)).acquire (.src src)).fs = w.fs := rfl
  rw [hsrc, hs]
  simp only
  rw [hz]
  simp only
  rw [hfs, hm]

/-- After a successful `unzip`, a second `unzip` of the same container into the
same destination succeeds and leaves the file system as it is. -/
theorem unzip_again (w : World) (src : String) (dest : Path)
    (h : (unzip w src dest).1 = none) (T : World)
    (hfs : T.fs = (unzip w src dest).2.fs) (hsrc : T.sources = w.sources) :
    (unzip T src dest).1 = none ∧ (unzip T src dest).2.fs = T.fs := by
  obtain ⟨s, entries, fs1, w2, hs, hz, hm, hl, hu⟩ := unzip_ok h
  rw [hu] at hfs
  have hfs2 : T.fs = w2.fs := hfs
  rw [unzipLoop_eq] at hl
  obtain ⟨hext, _⟩ := runRounds_keeps _ (zipRounds_good dest entries) _ _ hl
  obtain ⟨_, pm, hdir⟩ := mkdirAll_ok hm
  obtain ⟨pm1, hdir1⟩ := stat_dir_of_ext hext hdir
  have hm2 : mkdirAll T.fs dest 0o755 = .ok T.fs := by
    rw [hfs2]; exact mkdirAll_of_dir hdir1
  obtain ⟨T1, hT1, hT1fs⟩ := runRounds_again _ (zipRounds_good dest entries) _ _ hl
    (((T.emit (.unzipCalled src dest)).acquire (.src src)).withFs T.fs) hfs2
  rw [← unzipLoop_eq] at hT1
  rw [unzip_run (hsrc ▸ hs) hz hm2, hT1]
  exact ⟨rfl, by rw [hfs2]; exact hT1fs⟩

/-- After a successful `untar`, a second `untar` of the same stream into the
same destination succeeds and leaves the file system as it is. -/
theorem untar_again (w : World) (s : TarStream) (dst : Path)
    (h : (untar w s dst).1 = none) (T : World) (hfs : T.fs = (untar w s dst).2.fs) :
    (untar T s dst).1 = none ∧ (untar T s dst).2.fs = T.fs := by
  unfold untar at h hfs ⊢
  rcases hl : untarLoop dst s.final s.items (w.emit (.untarCalled dst)) with ⟨r, w1⟩
  rw [hl] at h hfs
  simp only at h hfs
  subst h
  have hfin := untarLoop_final _ _ _ _ _ hl
  rw [hfin] at hl ⊢
  rw [untarLoop_eq] at hl
  obtain ⟨T1, hT1, hT1fs⟩ := runRounds_again _ (tarRounds_good dst s.items) _ _ hl
    (T.emit (.untarCalled dst)) hfs
  rw [← untarLoop_eq] at hT1
  rw [hT1]
  exact ⟨rfl, by rw [hfs]; exact hT1fs⟩

theorem untar_sources (w : World) (s : TarStream) (dst : Path)
    (h : (untar w s dst).1 = none) : (untar w s dst).2.sources = w.sources := by
  unfold untar at h ⊢
  rcases hl : untarLoop dst s.final s.items (w.emit (.untarCalled dst)) with ⟨r, w1⟩
  rw [hl] at h
  simp only at h
  subst h
  have key := untarLoop_sources dst s.final s.items _ w1 hl
  exact key

theorem unzip_sources (w : World) (src : String) (dest : Path)
    (h : (unzip w src dest).1 = none) : (unzip w src dest).2.sources = w.sources := by
  obtain ⟨s, entries, fs1, w2, hs, hz, hm, hl, hu⟩ := unzip_ok h
  rw [hu]
  have key := unzipLoop_sources dest entries _ w2 hl
  exact key

/-! ## The branches of `unarchive` -/

theorem unarchive_zip {w : World} {path : String} {dst : Path}
    (hz : hasSuffix path "zip" = true) :
    unarchive w path dst = ⟨"zip", (unzip w path dst).1, (unzip w path dst).2⟩ := by
  unfold unarchive
  rw [if_pos hz]

theorem unarchive_tar_error {w : World} {path : String} {dst : Path} {e : Err}
    (hz : hasSuffix path "zip" = false) (ht : hasSuffix path "tar" = true)
    (hs : w.sources path = .error e) :
    unarchive w path dst = ⟨"tar", some e, w.emit (.logged e ("cannot read from: " ++ path))⟩ := by
  unfold unarchive
  simp only [hz, ht, if_true, Bool.false_eq_true, if_false, hs]

theorem unarchive_tar {w : World} {path : String} {dst : Path} {s : Source}
    (hz : hasSuffix path "zip" = false) (ht : hasSuffix path "tar" = true)
    (hs : w.sources path = .ok s) :
    unarchive w path dst = ⟨"tar", (untar (w.acquire (.src path)) s.tar dst).1,
      (untar (w.acquire (.src path)) s.tar dst).2.release (.src path)⟩ := by
  unfold unarchive
  simp only [hz, ht, if_true, Bool.false_eq_true, if_false, hs]

theorem unarchive_tgz_error {w : World} {path : String} {dst : Path} {e : Err}
    (hz : hasSuffix path "zip" = false) (ht : hasSuffix path "tar" = false)
    (hg : (hasSuffix path "tar.gz" || hasSuffix path "tgz") = true)
    (hs : w.sources path = .error e) :
    unarchive w path dst = ⟨"tgz", some e, w.emit (.logged e ("cannot read from: " ++ path))⟩ := by
  unfold unarchive
  simp only [hz, ht, hg, if_true, Bool.false_eq_true, if_false, hs]

theorem unarchive_tgz_gzip_error {w : World} {path : String} {dst : Path} {s : Source} {e : Err}
    (hz : hasSuffix path "zip" = false) (ht : hasSuffix path "tar" = false)
    (hg : (hasSuffix path "tar.gz" || hasSuffix path "tgz") = true)
    (hs : w.sources path = .ok s) (hgz : s.gzip = .error e) :
    unarchive w path dst = ⟨"tgz", some e, (w.acquire (.src path)).emit
      (.logged e ("unarchive: failed to create un-gzip : " ++ path))⟩ := by
  unfold unarchive
  simp only [hz, ht, hg, if_true, Bool.false_eq_true, if_false, hs, hgz]

theorem unarchive_tgz {w : World} {path : String} {dst : Path} {s : Source} {tarf : TarStream}
    (hz : hasSuffix path "zip" = false) (ht : hasSuffix path "tar" = false)
    (hg : (hasSuffix path "tar.gz" || hasSuffix path "tgz") = true)
    (hs : w.sources path = .ok s) (hgz : s.gzip = .ok tarf) :
    unarchive w path dst = ⟨"tgz", (untar (w.acquire (.src path)) tarf dst).1,
      (untar (w.acquire (.src path)) tarf dst).2⟩ := by
  unfold unarchive
  simp only [hz, ht, hg, if_true, Bool.false_eq_true, if_false, hs, hgz]

theorem unarchive_file {w : World} {path : String} {dst : Path}
    (hz : hasSuffix path "zip" = false) (ht : hasSuffix path "tar" = false)
    (hg : (hasSuffix path "tar.gz" || hasSuffix path "tgz") = false) :
    unarchive w path dst = ⟨"file", none, w⟩ := by
  unfold unarchive
  simp only [hz, ht, hg, Bool.false_eq_true, if_false]

/-! ## Failure in the middle of `unzip` -/

/-- The error and the file system a round of `unzip` leaves depend on the
world only through its file system. -/
theorem extract_fs_only (dest : Path) (f : ZipEntry) (A B : World) (h : A.fs = B.fs) :
    (extractAndWriteFile dest A f).1 = (extractAndWriteFile dest B f).1 ∧
    (extractAndWriteFile dest A f).2.fs = (extractAndWriteFile dest B f).2.fs := by
  unfold extractAndWriteFile
  rw [h]
  cases f.openErr with
  | some e => exact ⟨rfl, h⟩
  | none =>
    simp only
    cases f.isDir with
    | true =>
      simp only [if_true]
      cases mkdirAll B.fs (joinPath dest f.name) f.mode with
      | error e => exact ⟨rfl, h⟩
      | ok fs1 => exact ⟨rfl, rfl⟩
    | false =>
      simp only [Bool.false_eq_true, if_false]
      cases mkdirAll B.fs (joinPath dest f.name).parent f.mode with
      | error e => exact ⟨rfl, h⟩
      | ok fs1 =>
        simp only
        cases openFile fs1 (joinPath dest f.name) true f.mode with
        | error e => exact ⟨rfl, rfl⟩
        | ok fs2 => exact ⟨rfl, rfl⟩

theorem unzipLoop_fs_only (dest : Path) (entries : List ZipEntry) :
    ∀ (A B : World), A.fs = B.fs →
      (unzipLoop dest entries A).1 = (unzipLoop dest entries B).1 ∧
      (unzipLoop dest entries A).2.fs = (unzipLoop dest entries B).2.fs := by
  induction entries with
  | nil => exact fun A B h => ⟨rfl, h⟩
  | cons f rest ih =>
    intro A B h
    obtain ⟨h1, h2⟩ := extract_fs_only dest f A B h
    simp only [unzipLoop]
    rcases hA : extractAndWriteFile dest A f with ⟨rA, A1⟩
    rcases hB : extractAndWriteFile dest B f with ⟨rB, B1⟩
    rw [hA, hB] at h1 h2
    simp only at h1 h2
    subst h1
    cases rA with
    | some e => exact ⟨rfl, h2⟩
    | none => exact ih A1 B1 h2

theorem unzipLoop_append (dest : Path) (pre rest : List ZipEntry) :
    ∀ (w w1 : World), unzipLoop dest pre w = (none, w1) →
      unzipLoop dest (pre ++ rest) w = unzipLoop dest rest w1 := by
  induction pre with
  | nil =>
    intro w w1 h
    simp only [unzipLoop, Prod.mk.injEq, true_and] at h
    rw [h]; rfl
  | cons f pre ih =>
    intro w w1 h
    simp only [unzipLoop, List.cons_append] at h ⊢
    rcases hr : extractAndWriteFile dest w f with ⟨_ | e, w2⟩
    · rw [hr] at h
      exact ih w2 w1 h
    · rw [hr] at h
      cases h

theorem unzipLoop_open_fails (dest : Path) (f : ZipEntry) (post : List ZipEntry) (w : World)
    (e : Err) (ho : f.openErr = some e) : unzipLoop dest (f :: post) w = (some e, w) := by
  simp only [unzipLoop, extractAndWriteFile, ho]

theorem withSource_get (w : World) (path : String) (s : Source) :
    (w.withSource path s).sources path = .ok s := by
  simp [World.withSource]

/-! ## Directory entries of a TAR stream -/

theorem anchor_of_suffix {l l1 : List String} (h : l1 <:+ l)
    (ha : l.all (fun c => c == "..") = true) : l1.all (fun c => c == "..") = true := by
  rw [List.all_eq_true] at ha ⊢
  exact fun x hx => ha x (h.subset hx)

/-- In a tree, every ancestor of a path that exists is a directory. -/
theorem tree_ancestors {fs : FS} (ht : fs.Tree) (r : Bool) :
    ∀ (l : List String) (n : Node), stat fs ⟨r, l⟩ = some n →
      ∀ l1, l1 <:+ l → l1 ≠ l → ∃ pm, stat fs ⟨r, l1⟩ = some (.dir pm) := by
  intro l
  induction l with
  | nil =>
    intro n _ l1 h1 hne
    exact absurd (List.suffix_nil.mp h1) hne
  | cons c rest ih =>
    intro n hn l1 h1 hne
    have h2 : l1 <:+ rest := by
      rcases List.suffix_cons_iff.mp h1 with e | e
      · exact absurd e hne
      · exact e
    by_cases ha : (⟨r, c :: rest⟩ : Path).isAnchor = true
    · exact ⟨_, stat_anchor (p := ⟨r, l1⟩) (anchor_of_suffix h1 ha)⟩
    · have ha : (⟨r, c :: rest⟩ : Path).isAnchor = false := by simpa using ha
      rw [stat_of_not_anchor ha] at hn
      obtain ⟨pm, hpar⟩ := ht ⟨r, c :: rest⟩ (by rw [hn]; exact Option.some_ne_none _)
      have hpar : stat fs ⟨r, rest⟩ = some (.dir pm) := hpar
      by_cases e : l1 = rest
      · subst e
        exact ⟨pm, hpar⟩
      · exact ih _ hpar l1 h2 e

/-- In a tree, after `MkdirAll` the argument and all its ancestors are
directories. -/
theorem mkdirAllRev_ancestors {fs : FS} (ht : fs.Tree) (r : Bool) (perm : Nat) :
    ∀ (l : List String) (fs1 : FS), mkdirAllRev r perm l fs = .ok fs1 →
      ∀ l1, l1 <:+ l → ∃ pm, stat fs1 ⟨r, l1⟩ = some (.dir pm) := by
  intro l
  induction l with
  | nil =>
    intro fs1 _ l1 h1
    rw [List.suffix_nil.mp h1]
    exact ⟨_, stat_anchor (by simp [Path.isAnchor])⟩
  | cons c rest ih =>
    intro fs1 h l1 h1
    obtain ⟨_, pmB, hB⟩ := mkdirAllRev_ok r perm (c :: rest) fs fs1 h
    rcases List.suffix_cons_iff.mp h1 with e | h2
    · subst e
      exact ⟨pmB, hB⟩
    · have hne : l1 ≠ c :: rest := fun e => by
        have := h2.length_le
        rw [e] at this
        simp at this
      simp only [mkdirAllRev] at h
      split at h
      · rename_i pm hs
        cases h
        exact tree_ancestors ht r _ _ hs l1 h1 hne
      · cases h
      · split at h
        · cases h
        · rename_i fs2 hrec
          obtain ⟨pm2, h3⟩ := ih fs2 hrec l1 h2
          rcases mkdirChecked_ok h with ⟨e, _⟩ | ⟨hnone, _, e⟩
          · rw [e]; exact ⟨pm2, h3⟩
          · refine ⟨pm2, ?_⟩
            rw [e]
            by_cases ha : (⟨r, l1⟩ : Path).isAnchor = true
            · rw [stat_anchor ha] at h3 ⊢
              exact h3
            · have ha : (⟨r, l1⟩ : Path).isAnchor = false := by simpa using ha
              rw [stat_of_not_anchor ha] at h3 ⊢
              rw [set_other _ _ (fun e1 => hne (congrArg Path.rev e1))]
              exact h3

/-- A round of `untar` on a directory entry whose path is absent makes the
directory and every missing ancestor with mode 0755. -/
theorem untarEntry_dir_creates {dst : Path} {w w1 : World} {h : TarHeader} {body : List Nat}
    {copyErr : Option Err} (hd : h.typeflag = .dir) (ht : w.fs.Tree)
    (hnone : stat w.fs (joinPath dst h.name) = none)
    (hr : untarEntry dst w h body copyErr = (none, w1)) (q : Path)
    (hq : (joinPath dst h.name).under q) (hqn : stat w.fs q = none) :
    w1.fs q = some (.dir 0o755) := by
  obtain ⟨_, hcase⟩ := untarEntry_ok hr
  rcases hcase with ⟨_, ⟨n, hs⟩, _⟩ | ⟨_, _, hm⟩ | ⟨ht2, _⟩ | ⟨ht2, _⟩
  · rw [hnone] at hs; cases hs
  · obtain ⟨hA, _⟩ := mkdirAll_ok hm
    obtain ⟨hq1, hq2⟩ := hq
    obtain ⟨pm, hdir⟩ := mkdirAllRev_ancestors ht _ _ _ _ hm q.rev hq2
    obtain ⟨ha, hfq⟩ := not_anchor_of_stat_none hqn
    have hqeq : (⟨(joinPath dst h.name).rooted, q.rev⟩ : Path) = q := by
      cases q
      simp only [Path.mk.injEq, and_true]
      exact hq1
    rw [hqeq, stat_of_not_anchor ha] at hdir
    rcases hA q with e | ⟨_, e, _⟩
    · rw [e, hfq] at hdir; cases hdir
    · exact e
  · rw [hd] at ht2; cases ht2
  · rw [hd] at ht2; cases ht2

/-- After a round of `untar`, the path of a directory entry exists, and a
regular file is one that was there before or the one the round wrote. -/
theorem untarEntry_after {dst : Path} {w w1 : World} {h : TarHeader} {body : List Nat}
    {copyErr : Option Err} (hr : untarEntry dst w h body copyErr = (none, w1)) :
    (h.typeflag = .dir → ∃ n, stat w1.fs (joinPath dst h.name) = some n) ∧
    (∀ q m c, w1.fs q = some (.file m c) →
      (∃ m0 c0, w.fs q = some (.file m0 c0)) ∨
      (h.typeflag = .reg ∧ joinPath dst h.name = q)) := by
  obtain ⟨_, hcase⟩ := untarEntry_ok hr
  rcases hcase with ⟨_, ⟨n, hs⟩, rfl⟩ | ⟨_, _, hm⟩ | ⟨ht, _, fs1, hop, hfs⟩ | ⟨ht, rfl⟩
  · exact ⟨fun _ => ⟨n, hs⟩, fun q m c hq => Or.inl ⟨m, c, hq⟩⟩
  · obtain ⟨hA, pm, hB⟩ := mkdirAll_ok hm
    refine ⟨fun _ => ⟨_, hB⟩, fun q m c hq => ?_⟩
    rcases hA q with e | ⟨_, e, _⟩
    · exact Or.inl ⟨m, c, by rw [← e]; exact hq⟩
    · rw [e] at hq; cases hq
  · refine ⟨fun hd => (by rw [hd] at ht; cases ht), fun q m c hq => ?_⟩
    by_cases e : q = joinPath dst h.name
    · exact Or.inr ⟨ht, e.symm⟩
    · left
      rw [hfs] at hq
      obtain ⟨_, hopw⟩ := open_write_ok body hop
      rcases hopw with ⟨m0, c0, _, hwr⟩ | ⟨_, _, hwr⟩
      · rw [hwr, set_other _ _ e] at hq
        exact ⟨m, c, hq⟩
      · rw [hwr, set_other _ _ e] at hq
        exact ⟨m, c, hq⟩
  · exact ⟨fun hd => (by rw [hd] at ht; cases ht), fun q m c hq => Or.inl ⟨m, c, hq⟩⟩

theorem untarLoop_ext (dst : Path) (final : Option Err) (items : List TarItem) (w w1 : World)
    (h : untarLoop dst final items w = (none, w1)) : FS.Ext w.fs w1.fs := by
  have hfin := untarLoop_final _ _ _ _ _ h
  rw [hfin, untarLoop_eq] at h
  exact (runRounds_keeps _ (tarRounds_good dst items) _ _ h).1

/-- After a loop of `untar` that succeeded, the path of every directory entry
exists, and every regular file was there before or is the target of a
regular-file entry. -/
theorem untarLoop_after (dst : Path) (final : Option Err) (items : List TarItem) :
    ∀ (w w1 : World), untarLoop dst final items w = (none, w1) →
      (∀ h body copyErr, TarItem.entry h body copyErr ∈ items → h.typeflag = .dir →
        ∃ n, stat w1.fs (joinPath dst h.name) = some n) ∧
      (∀ q m c, w1.fs q = some (.file m c) →
        (∃ m0 c0, w.fs q = some (.file m0 c0)) ∨
        (∃ h body copyErr, TarItem.entry h body copyErr ∈ items ∧ h.typeflag = .reg ∧
          joinPath dst h.name = q)) := by
  induction items with
  | nil =>
    intro w w1 h
    simp only [untarLoop, Prod.mk.injEq] at h
    obtain ⟨_, rfl⟩ := h
    exact ⟨fun _ _ _ hmem => absurd hmem (List.not_mem_nil _),
      fun q m c hq => Or.inl ⟨m, c, hq⟩⟩
  | cons it rest ih =>
    intro w w1 h
    cases it with
    | nilHeader =>
      obtain ⟨i1, i2⟩ := ih w w1 h
      refine ⟨fun hd body copyErr hmem hdir => ?_, fun q m c hq => ?_⟩
      · rcases List.mem_cons.mp hmem with e | hmem
        · cases e
        · exact i1 hd body copyErr hmem hdir
      · rcases i2 q m c hq with l | ⟨hd, body, copyErr, hmem, hreg, e⟩
        · exact Or.inl l
        · exact Or.inr ⟨hd, body, copyErr, List.mem_cons_of_mem _ hmem, hreg, e⟩
    | entry hd0 body0 copyErr0 =>
      simp only [untarLoop] at h
      rcases hr : untarEntry dst w hd0 body0 copyErr0 with ⟨_ | e, w2⟩
      · rw [hr] at h
        obtain ⟨i1, i2⟩ := ih w2 w1 h
        obtain ⟨a1, a2⟩ := untarEntry_after hr
        have hext := untarLoop_ext dst final rest w2 w1 h
        refine ⟨fun hd body copyErr hmem hdir => ?_, fun q m c hq => ?_⟩
        · rcases List.mem_cons.mp hmem with e | hmem
          · cases e
            obtain ⟨n, hn⟩ := a1 hdir
            exact stat_some_of_ext hext hn
          · exact i1 hd body copyErr hmem hdir
        · rcases i2 q m c hq with ⟨m2, c2, l⟩ | ⟨hd, body, copyErr, hmem, hreg, e⟩
          · rcases a2 q m2 c2 l with l0 | ⟨hreg, e⟩
            · exact Or.inl l0
            · exact Or.inr ⟨hd0, body0, copyErr0, List.mem_cons_self _ _, hreg, e⟩
          · exact Or.inr ⟨hd, body, copyErr, List.mem_cons_of_mem _ hmem, hreg, e⟩
      · rw [hr] at h
        cases h

/-! ## The tree shape is kept -/

theorem tree_of_ext {fs fs1 : FS} (ht : fs.Tree) (hext : FS.Ext fs fs1)
    (hnew : ∀ q, fs q = none → fs1 q ≠ none → ∃ pm, stat fs1 q.parent = some (.dir pm)) :
    fs1.Tree := by
  intro q hq
  by_cases h : fs q = none
  · exact hnew q h hq
  · obtain ⟨pm, hp⟩ := ht q h
    exact stat_dir_of_ext hext hp

theorem mkdirAll_tree {fs fs1 : FS} {p : Path} {perm : Nat} (ht : fs.Tree)
    (hm : mkdirAll fs p perm = .ok fs1) : fs1.Tree := by
  refine tree_of_ext ht (mkdirAll_keeps hm).1 (fun q hnone hne => ?_)
  rcases (mkdirAll_ok hm).1 q with e | ⟨_, _, ⟨hr, hsuf⟩, _⟩
  · rw [e] at hne
    exact absurd hnone hne
  · obtain ⟨pm, hdir⟩ := mkdirAllRev_ancestors ht p.rooted perm p.rev fs1 hm q.rev.tail
      ((List.tail_suffix q.rev).trans hsuf)
    refine ⟨pm, ?_⟩
    have hp : q.parent = ⟨p.rooted, q.rev.tail⟩ := by
      simp only [Path.parent, Path.mk.injEq, and_true]
      exact hr.symm
    rw [hp]
    exact hdir

theorem open_write_tree {fs fs1 : FS} {p : Path} {trunc : Bool} {perm : Nat} (body : List Nat)
    (ht : fs.Tree) (hop : openFile fs p trunc perm = .ok fs1) :
    (writeFile fs1 p body).Tree := by
  obtain ⟨_, hopw⟩ := open_write_ok body hop
  rcases hopw with ⟨m0, c0, hf, hwr⟩ | ⟨hnone, ⟨pm, hpar⟩, hwr⟩
  · rw [hwr]
    refine tree_of_ext ht (ext_set_file _ _ hf) (fun q hq hne => ?_)
    by_cases e : q = p
    · rw [e, hf] at hq
      cases hq
    · rw [set_other _ _ e] at hne
      exact absurd hq hne
  · rw [hwr]
    refine tree_of_ext ht (ext_set_of_none _ hnone) (fun q hq hne => ?_)
    by_cases e : q = p
    · rw [e]
      exact stat_dir_of_ext (ext_set_of_none _ hnone) hpar
    · rw [set_other _ _ e] at hne
      exact absurd hq hne

/-- A round of `untar` that succeeds on a tree leaves a tree. -/
theorem untarEntry_tree {dst : Path} {w w1 : World} {h : TarHeader} {body : List Nat}
    {copyErr : Option Err} (ht : w.fs.Tree)
    (hr : untarEntry dst w h body copyErr = (none, w1)) : w1.fs.Tree := by
  obtain ⟨_, hcase⟩ := untarEntry_ok hr
  rcases hcase with ⟨_, _, rfl⟩ | ⟨_, _, hm⟩ | ⟨_, _, fs1, hop, hfs⟩ | ⟨_, rfl⟩
  · exact ht
  · exact mkdirAll_tree ht hm
  · rw [hfs]
    exact open_write_tree body ht hop
  · exact ht

/-- Every round of a loop of `untar` begun on a tree works on a tree: the
state after any number of successful rounds is a tree. -/
theorem untarLoop_tree (dst : Path) (final : Option Err) (items : List TarItem) :
    ∀ (w w1 : World), w.fs.Tree → untarLoop dst final items w = (none, w1) → w1.fs.Tree := by
  induction items with
  | nil =>
    intro w w1 ht h
    simp only [untarLoop, Prod.mk.injEq] at h
    rw [← h.2]
    exact ht
  | cons it rest ih =>
    intro w w1 ht h
    cases it with
    | nilHeader => exact ih w w1 ht h
    | entry hd body copyErr =>
      simp only [untarLoop] at h
      rcases hr : untarEntry dst w hd body copyErr with ⟨_ | e, w2⟩
      · rw [hr] at h
        exact ih w2 w1 (untarEntry_tree ht hr) h
      · rw [hr] at h
        cases h

/-! ## `unzip` into an empty destination -/

theorem mkdirAll_preserves {fs fs1 : FS} {p : Path} {perm : Nat}
    (h : mkdirAll fs p perm = .ok fs1) {q : Path} {n : Node} (hq : fs q = some n) :
    fs1 q = some n := by
  rcases (mkdirAll_ok h).1 q with e | ⟨e, _⟩
  · rw [e]; exact hq
  · rw [e] at hq; cases hq

theorem mkdirAll_file_back {fs fs1 : FS} {p : Path} {perm : Nat}
    (h : mkdirAll fs p perm = .ok fs1) {q : Path} {m : Nat} {c : List Nat}
    (hq : fs1 q = some (.file m c)) : fs q = some (.file m c) := by
  rcases (mkdirAll_ok h).1 q with e | ⟨_, e, _⟩
  · rw [← e]; exact hq
  · rw [e] at hq; cases hq

theorem stat_dir_set_other {fs : FS} {p q : Path} {pm : Nat} (n : Node)
    (hq : stat fs q = some (.dir pm)) (hne : fs p = none) :
    ∃ pm1, stat (fs.set p n) q = some (.dir pm1) :=
  stat_dir_of_ext (ext_set_of_none n hne) hq

/-- One round of `unzip` keeps the invariant, for an entry under the
destination whose path no earlier entry has. -/
theorem zipInv_step {dest : Path} {done : List ZipEntry} {f : ZipEntry} {w w1 : World}
    (hinv : ZipInv dest done w.fs)
    (hnew : ∀ g ∈ done, joinPath dest g.name ≠ joinPath dest f.name)
    (hunder : (joinPath dest f.name).under dest)
    (hr : extractAndWriteFile dest w f = (none, w1)) :
    ZipInv dest (done ++ [f]) w1.fs := by
  obtain ⟨i0, i1, i2, i3⟩ := hinv
  obtain ⟨pm0, i0⟩ := i0
  obtain ⟨_, _, hcase⟩ := zipRound_ok hr
  rcases hcase with ⟨hd, hm⟩ | ⟨hd, _, fs1, fs2, hm, hop, hfs⟩
  · obtain ⟨hext, _⟩ := mkdirAll_keeps hm
    obtain ⟨_, pmB, hB⟩ := mkdirAll_ok hm
    refine ⟨stat_dir_of_ext hext i0, fun q m c hq hf => ?_, fun g hg hgd => ?_,
      fun g hg hgd => ?_⟩
    · obtain ⟨g, hg, h1, h2⟩ := i1 q m c hq (mkdirAll_file_back hm hf)
      exact ⟨g, List.mem_append_left _ hg, h1, h2⟩
    · rcases List.mem_append.mp hg with hg | hg
      · exact mkdirAll_preserves hm (i2 g hg hgd)
      · rw [List.mem_singleton.mp hg, hd] at hgd; cases hgd
    · rcases List.mem_append.mp hg with hg | hg
      · obtain ⟨pm, h1⟩ := i3 g hg hgd
        exact stat_dir_of_ext hext h1
      · rw [List.mem_singleton.mp hg]
        exact ⟨pmB, hB⟩
  · obtain ⟨hext, _⟩ := mkdirAll_keeps hm
    obtain ⟨ha, hopw⟩ := open_write_ok f.body hop
    have hnofile : ∀ m0 c0, fs1 (joinPath dest f.name) ≠ some (.file m0 c0) := by
      intro m0 c0 hf1
      have hf0 := mkdirAll_file_back hm hf1
      have hne : joinPath dest f.name ≠ dest := by
        intro e
        rw [e] at hf0 ha
        rw [stat_of_not_anchor ha, hf0] at i0
        cases i0
      obtain ⟨g, hg, _, h2⟩ := i1 _ m0 c0 ⟨hunder, hne⟩ hf0
      exact hnew g hg h2
    rcases hopw with ⟨m0, c0, hf1, _⟩ | ⟨hnone, _, hwr⟩
    · exact absurd hf1 (hnofile m0 c0)
    · rw [hfs, hwr]
      refine ⟨stat_dir_set_other _ (stat_dir_of_ext hext i0).choose_spec hnone,
        fun q m c hq hf => ?_, fun g hg hgd => ?_, fun g hg hgd => ?_⟩
      · by_cases e : q = joinPath dest f.name
        · exact ⟨f, List.mem_append_right _ (List.mem_singleton.mpr rfl), hd, e.symm⟩
        · rw [set_other _ _ e] at hf
          obtain ⟨g, hg, h1, h2⟩ := i1 q m c hq (mkdirAll_file_back hm hf)
          exact ⟨g, List.mem_append_left _ hg, h1, h2⟩
      · rcases List.mem_append.mp hg with hg | hg
        · rw [set_other _ _ (hnew g hg)]
          exact mkdirAll_preserves hm (i2 g hg hgd)
        · rw [List.mem_singleton.mp hg, set_same]
      · rcases List.mem_append.mp hg with hg | hg
        · obtain ⟨pm, h1⟩ := i3 g hg hgd
          exact stat_dir_set_other _ (stat_dir_of_ext hext h1).choose_spec hnone
        · rw [List.mem_singleton.mp hg, hd] at hgd; cases hgd

/-- The loop of `unzip` keeps the invariant. -/
theorem zipInv_loop (dest : Path) :
    ∀ (rest done : List ZipEntry) (w w1 : World), ZipInv dest done w.fs →
      ((done ++ rest).map fun g => joinPath dest g.name).Nodup →
      (∀ f ∈ rest, (joinPath dest f.name).under dest) →
      unzipLoop dest rest w = (none, w1) → ZipInv dest (done ++ rest) w1.fs := by
  intro rest
  induction rest with
  | nil =>
    intro done w w1 hinv _ _ h
    simp only [unzipLoop, Prod.mk.injEq, true_and] at h
    rw [List.append_nil, ← h]
    exact hinv
  | cons f rest ih =>
    intro done w w1 hinv hnd hunder h
    simp only [unzipLoop] at h
    rcases hr : extractAndWriteFile dest w f with ⟨_ | e, w2⟩
    · rw [hr] at h
      have hnew : ∀ g ∈ done, joinPath dest g.name ≠ joinPath dest f.name := by
        intro g hg e
        rw [List.map_append, List.map_cons, List.nodup_append] at hnd
        exact hnd.2.2 (List.mem_map.mpr ⟨g, hg, rfl⟩)
          (e ▸ List.mem_cons_self _ _)
      have hstep := zipInv_step hinv hnew (hunder f (List.mem_cons_self _ _)) hr
      have happ : done ++ f :: rest = (done ++ [f]) ++ rest := by simp
      rw [happ] at hnd ⊢
      exact ih (done ++ [f]) w2 w1 hstep hnd
        (fun g hg => hunder g (List.mem_cons_of_mem _ hg)) h
    · rw [hr] at h
      cases h

/-- After `MkdirAll` of an empty or absent destination the invariant holds
with no entry processed. -/
theorem zipInv_start {fs fs1 : FS} {dest : Path} (hempty : ∀ q, q.below dest → fs q = none)
    (hm : mkdirAll fs dest 0o755 = .ok fs1) : ZipInv dest [] fs1 := by
  obtain ⟨_, pm, hB⟩ := mkdirAll_ok hm
  refine ⟨⟨pm, hB⟩, fun q m c hq hf => ?_, fun g hg => absurd hg (List.not_mem_nil _),
    fun g hg => absurd hg (List.not_mem_nil _)⟩
  have := mkdirAll_file_back hm hf
  rw [hempty q hq] at this
  cases this

/-! ## Dispatch by suffix -/

theorem hasSuffix_iff (s t : String) : hasSuffix s t = true ↔ t.data <:+ s.data := by
  simp [hasSuffix]

/-- A name that ends in the longer of two texts ends in the shorter one exactly
when the shorter one ends the longer one. -/
theorem hasSuffix_of_longer (s long short : String) (hl : hasSuffix s long = true)
    (hlen : short.data.length ≤ long.data.length) :
    hasSuffix s short = decide (short.data <:+ long.data) := by
  rw [hasSuffix_iff] at hl
  by_cases h : short.data <:+ long.data
  · rw [decide_eq_true h, hasSuffix_iff]
    exact h.trans hl
  · rw [decide_eq_false h]
    cases hs : hasSuffix s short with
    | false => rfl
    | true =>
      rw [hasSuffix_iff] at hs
      exact absurd (List.suffix_of_suffix_length_le hs hl hlen) h

/-! ## The claims -/

/-- C1: whatever the world (so whatever the outcome of the extraction), a path
ending in `.zip` yields kind "zip", one ending in `.tar` yields kind "tar", and
one ending in `.tar.gz` or `.tgz` yields kind "tgz". -/
theorem unarchive_kind_of_dotted_suffix (w : World) (path : String) (dst : Path) :
    (hasSuffix path ".zip" = true → (unarchive w path dst).kind = "zip") ∧
    (hasSuffix path ".tar" = true → (unarchive w path dst).kind = "tar") ∧
    (hasSuffix path ".tar.gz" = true ∨ hasSuffix path ".tgz" = true →
      (unarchive w path dst).kind = "tgz") := by
  refine ⟨fun h => ?_, fun h => ?_, fun h => ?_⟩
  · have hz : hasSuffix path "zip" = true := by
      rw [hasSuffix_of_longer path ".zip" "zip" h (by decide)]; decide
    unfold unarchive
    rw [if_pos hz]
  · have hz : hasSuffix path "zip" = false := by
      rw [hasSuffix_of_longer path ".tar" "zip" h (by decide)]; decide
    have ht : hasSuffix path "tar" = true := by
      rw [hasSuffix_of_longer path ".tar" "tar" h (by decide)]; decide
    unfold unarchive
    simp only [hz, ht, if_true, Bool.false_eq_true, if_false]
    cases w.sources path <;> rfl
  · have hz : hasSuffix path "zip" = false := by
      rcases h with h | h
      · rw [hasSuffix_of_longer path ".tar.gz" "zip" h (by decide)]; decide
      · rw [hasSuffix_of_longer path ".tgz" "zip" h (by decide)]; decide
    have ht : hasSuffix path "tar" = false := by
      rcases h with h | h
      · rw [hasSuffix_of_longer path ".tar.gz" "tar" h (by decide)]; decide
      · rw [hasSuffix_of_longer path ".tgz" "tar" h (by decide)]; decide
    have hg : (hasSuffix path "tar.gz" || hasSuffix path "tgz") = true := by
      rcases h with h | h
      · have h1 : hasSuffix path "tar.gz" = true := by
          rw [hasSuffix_of_longer path ".tar.gz" "tar.gz" h (by decide)]; decide
        rw [h1]; rfl
      · have h1 : hasSuffix path "tgz" = true := by
          rw [hasSuffix_of_longer path ".tgz" "tgz" h (by decide)]; decide
        rw [h1, Bool.or_true]
    unfold unarchive
    simp only [hz, ht, hg, if_true, Bool.false_eq_true, if_false]
    cases w.sources path with
    | error e => rfl
    | ok s =>
      show (match s.gzip with
        | Except.error e => (_ : Outcome)
        | Except.ok tarf => _).kind = "tgz"
      cases s.gzip <;> rfl

/-- C1, at concrete paths: `a.zip`, `a.tar`, `a.tar.gz` and `a.tgz` in a world
where none of them can be opened. -/
theorem unarchive_kind_of_dotted_suffix_witness :
    (hasSuffix "a.zip" ".zip" = true ∧ (unarchive worldD "a.zip" dirD).kind = "zip") ∧
    (hasSuffix "a.tar" ".tar" = true ∧ (unarchive worldD "a.tar" dirD).kind = "tar") ∧
    (hasSuffix "a.tar.gz" ".tar.gz" = true ∧ (unarchive worldD "a.tar.gz" dirD).kind = "tgz") ∧
    (hasSuffix "a.tgz" ".tgz" = true ∧ (unarchive worldD "a.tgz" dirD).kind = "tgz") :=
  ⟨⟨by decide, (unarchive_kind_of_dotted_suffix worldD "a.zip" dirD).1 (by decide)⟩,
   ⟨by decide, (unarchive_kind_of_dotted_suffix worldD "a.tar" dirD).2.1 (by decide)⟩,
   ⟨by decide,
    (unarchive_kind_of_dotted_suffix worldD "a.tar.gz" dirD).2.2 (Or.inl (by decide))⟩,
   ⟨by decide, (unarchive_kind_of_dotted_suffix worldD "a.tgz" dirD).2.2 (Or.inr (by decide))⟩⟩

/-- C2 fails as stated: the path `myzip` ends in none of `.zip`, `.tar`,
`.tar.gz`, `.tgz`, yet `unarchive` reports kind "zip", invokes `unzip`, and the
file system changes (`d/a.txt` appears). -/
theorem unarchive_undotted_suffix_counterexample :
    hasSuffix "myzip" ".zip" = false ∧ hasSuffix "myzip" ".tar" = false ∧
    hasSuffix "myzip" ".tar.gz" = false ∧ hasSuffix "myzip" ".tgz" = false ∧
    (unarchive worldMyzip "myzip" dirD).kind = "zip" ∧
    (unarchive worldMyzip "myzip" dirD).world.trace = [.unzipCalled "myzip" dirD] ∧
    worldMyzip.fs (relPath ["d", "a.txt"]) = none ∧
    (unarchive worldMyzip "myzip" dirD).world.fs (relPath ["d", "a.txt"]) =
      some (.file 0o644 (bytes "hi")) := by
  decide

/-- C2 as amended: a path that ends in none of `zip`, `tar`, `tar.gz`, `tgz`
(the suffixes the code tests, without the dot) yields kind "file" and no error,
and the world is untouched: same file system, same open handles, and a trace
without any extractor invocation added. -/
theorem unarchive_file_of_no_suffix (w : World) (path : String) (dst : Path)
    (hz : hasSuffix path "zip" = false) (ht : hasSuffix path "tar" = false)
    (hg : hasSuffix path "tar.gz" = false) (hq : hasSuffix path "tgz" = false) :
    (unarchive w path dst).kind = "file" ∧ (unarchive w path dst).err = none ∧
    (unarchive w path dst).world = w := by
  rw [unarchive_file hz ht (by rw [hg, hq]; rfl)]
  exact ⟨rfl, rfl, rfl⟩

/-- C2 as amended, at the path `data.bin`. -/
theorem unarchive_file_of_no_suffix_witness :
    hasSuffix "data.bin" "zip" = false ∧
    ((unarchive worldD "data.bin" dirD).kind = "file" ∧
      (unarchive worldD "data.bin" dirD).err = none ∧
      (unarchive worldD "data.bin" dirD).world = worldD) :=
  ⟨by decide, unarchive_file_of_no_suffix worldD "data.bin" dirD (by decide) (by decide)
    (by decide) (by decide)⟩

/-- C3 is violated by `untar`: with `d/a.txt` holding the eleven bytes
"hello world", extracting a stream whose only entry is `a.txt` with the three
bytes "bye" succeeds and leaves "byelo world" (the file is opened without
`O_TRUNC`), whereas `unzip` of the same entry over the same tree leaves "bye". -/
theorem untar_keeps_stale_tail :
    (untar worldLonger streamBye dirD).1 = none ∧
    (untar worldLonger streamBye dirD).2.fs (relPath ["d", "a.txt"]) =
      some (.file 0o644 (bytes "byelo world")) ∧
    bytes "byelo world" ≠ bytes "bye" ∧
    (unzip worldByeZip "a.zip" dirD).2.fs (relPath ["d", "a.txt"]) =
      some (.file 0o644 (bytes "bye")) := by
  decide

/-- C4 is violated by `untar`: in the stream `notes/a.txt`, `notes/` the file
entry is reached while `d/notes` does not exist and `untar` fails with
`ENOENT`; with the directory entry first it succeeds; with the destination
itself missing a top-level file entry fails too; `unzip` of the same two
entries into a missing destination succeeds. -/
theorem untar_missing_parent_fails :
    (untar worldD streamNotes dirD).1 = some .ENOENT ∧
    (untar worldD streamNotes dirD).2.fs (relPath ["d", "notes", "a.txt"]) = none ∧
    (untar worldD streamNotesDirFirst dirD).1 = none ∧
    (untar worldEmpty streamBye dirD).1 = some .ENOENT ∧
    (unzip worldNotesZip "n.zip" dirD).1 = none ∧
    (unzip worldNotesZip "n.zip" dirD).2.fs (relPath ["d", "notes", "a.txt"]) =
      some (.file 0o644 (bytes "hello")) := by
  decide

/-- C6 is violated on the `tar.gz`/`tgz` branch: starting with no open handle,
`unarchive` of `a.tgz` returns normally with the handle on `a.tgz` still open,
and so does the gzip-initialisation failure on `b.tgz`; the `tar` branch closes
its handle. -/
theorem unarchive_tgz_leaves_handle_open :
    worldTgz.handles = [] ∧
    (unarchive worldTgz "a.tgz" dirD).err = none ∧
    (unarchive worldTgz "a.tgz" dirD).world.handles = [.src "a.tgz"] ∧
    worldBadTgz.handles = [] ∧
    (unarchive worldBadTgz "b.tgz" dirD).err = some (.decode "gzip: invalid header") ∧
    (unarchive worldBadTgz "b.tgz" dirD).world.handles = [.src "b.tgz"] ∧
    (unarchive worldTar "a.tar" dirD).world.handles = [] := by
  decide

/-- C8: in a container `pre ++ ek :: post` where opening the reader of `ek`
fails with `e`, and where `unzip` of the entries `pre` alone succeeds, `unzip`
returns `e` and leaves exactly the file system that extracting `pre` alone
leaves: what was extracted stays, nothing is done for `ek` or a later entry. -/
theorem unzip_stops_at_failed_open (w : World) (src : String) (dest : Path) (s : Source)
    (pre post : List ZipEntry) (ek : ZipEntry) (e : Err)
    (hs : w.sources src = .ok s) (hz : s.zip = .ok (pre ++ ek :: post))
    (ho : ek.openErr = some e)
    (hpre : (unzip (w.withSource src (s.withZip pre)) src dest).1 = none) :
    (unzip w src dest).1 = some e ∧
    (unzip w src dest).2.fs = (unzip (w.withSource src (s.withZip pre)) src dest).2.fs := by
  obtain ⟨s1, entries1, fs1, w2, hs1, hz1, hm, hl, hu⟩ := unzip_ok hpre
  rw [withSource_get] at hs1
  cases hs1
  have hz1 : pre = entries1 := by
    simp only [Source.withZip, Except.ok.injEq] at hz1
    exact hz1
  subst hz1
  have hm1 : mkdirAll w.fs dest 0o755 = .ok fs1 := hm
  rw [hu, unzip_run hs hz hm1]
  obtain ⟨k1, k2⟩ := unzipLoop_fs_only dest pre
    (((w.emit (.unzipCalled src dest)).acquire (.src src)).withFs fs1)
    ((((w.withSource src (s.withZip pre)).emit (.unzipCalled src dest)).acquire
      (.src src)).withFs fs1) rfl
  rw [hl] at k1 k2
  rcases hA : unzipLoop dest pre
    (((w.emit (.unzipCalled src dest)).acquire (.src src)).withFs fs1) with ⟨rA, A1⟩
  rw [hA] at k1 k2
  simp only at k1 k2
  subst k1
  rw [unzipLoop_append dest pre (ek :: post) _ A1 hA, unzipLoop_open_fails dest ek post A1 e ho]
  exact ⟨rfl, k2⟩

/-- C8, for the container of five entries whose third cannot be opened: the
error is returned, and the tree is the one left by extracting the first two. -/
theorem unzip_stops_at_failed_open_witness :
    (unzip (worldFive.withSource "p.zip"
      ((zipSource (fivePre ++ fiveBad :: fivePost)).withZip fivePre)) "p.zip" dirD).1 = none ∧
    ((unzip worldFive "p.zip" dirD).1 = some (.decode "zip: not a valid zip file") ∧
      (unzip worldFive "p.zip" dirD).2.fs =
        (unzip (worldFive.withSource "p.zip"
          ((zipSource (fivePre ++ fiveBad :: fivePost)).withZip fivePre)) "p.zip" dirD).2.fs) :=
  ⟨by decide, unzip_stops_at_failed_open worldFive "p.zip" dirD
    (zipSource (fivePre ++ fiveBad :: fivePost)) fivePre fivePost fiveBad
    (.decode "zip: not a valid zip file") rfl rfl rfl (by decide)⟩

/-- The scenario of C8 on disk: entries 1 and 2 exist, entries 3 to 5 do not. -/
theorem unzip_five_on_disk :
    (unzip worldFive "p.zip" dirD).2.fs (relPath ["d", "1.txt"]) =
      some (.file 0o644 (bytes "one")) ∧
    (unzip worldFive "p.zip" dirD).2.fs (relPath ["d", "2.txt"]) =
      some (.file 0o644 (bytes "two")) ∧
    (unzip worldFive "p.zip" dirD).2.fs (relPath ["d", "3.txt"]) = none ∧
    (unzip worldFive "p.zip" dirD).2.fs (relPath ["d", "4.txt"]) = none ∧
    (unzip worldFive "p.zip" dirD).2.fs (relPath ["d", "5.txt"]) = none := by
  decide

/-- C10: for `unzip` and for `untar` there is an archive with an entry named
`../x` and a destination `d` such that the extraction succeeds and creates a
regular file at the joined path `x`, which is not under `d`. -/
theorem extractors_escape_destination :
    (∃ (w : World) (src : String) (dest : Path) (f : ZipEntry),
      w.sources src = .ok (zipSource [f]) ∧ ".." ∈ segments f.name ∧
      (unzip w src dest).1 = none ∧ w.fs (joinPath dest f.name) = none ∧
      (unzip w src dest).2.fs (joinPath dest f.name) = some (.file f.mode f.body) ∧
      ¬ (joinPath dest f.name).under dest) ∧
    (∃ (w : World) (dst : Path) (h : TarHeader) (body : List Nat),
      ".." ∈ segments h.name ∧
      (untar w ⟨[.entry h body none], none⟩ dst).1 = none ∧
      w.fs (joinPath dst h.name) = none ∧
      (untar w ⟨[.entry h body none], none⟩ dst).2.fs (joinPath dst h.name) =
        some (.file h.mode body) ∧
      ¬ (joinPath dst h.name).under dst) :=
  ⟨⟨worldEscapeZip, "e.zip", dirD, zipClimb, rfl, by decide, by decide, by decide, by decide,
      by decide⟩,
   ⟨worldD, dirD, ⟨"../x", .reg, 0o644⟩, bytes "out", by decide, by decide, by decide,
      by decide, by decide⟩⟩

theorem fsOutside_below (q : Path) (hq : q.below dirD) : fsOutside q = none := by
  by_cases e : q = relPath ["x"]
  · subst e
    exact absurd hq (by decide)
  · simp [fsOutside, FS.set, FS.empty, e]

theorem fsWithD_tree : fsWithD.Tree := by
  intro q hq
  by_cases e : q = dirD
  · subst e
    exact ⟨_, rfl⟩
  · exact absurd (by simp [fsWithD, FS.set, FS.empty, e]) hq

/-- C9 fails as stated: the stream holds the regular file `x` and then the
directory entry `x/`; `untar` into the existing empty `d` succeeds, and the
mapped path `d/x` of the directory entry is a regular file, not a directory. -/
theorem untar_dir_entry_counterexample :
    tarDir "x/" 0o755 ∈ streamFileThenDir.items ∧
    (untar worldD streamFileThenDir dirD).1 = none ∧
    joinPath dirD "x/" = relPath ["d", "x"] ∧
    stat (untar worldD streamFileThenDir dirD).2.fs (joinPath dirD "x/") =
      some (.file 0o644 (bytes "hi")) := by
  decide

/-- C9 as amended, for a directory-type entry with header `h`, whatever mode it
stores. In a round that succeeds on a tree where nothing exists at the mapped
path, that path and every missing ancestor become directories with mode 0755;
where something exists at the mapped path, directory or not, the round changes
nothing and raises no error. After a successful `untar` of a stream holding
the entry, its mapped path exists, and it is a regular file only if a regular
file was there at the start or a regular-file entry of the stream maps to it. -/
theorem untar_dir_entry_amended (dst : Path) (h : TarHeader) (body : List Nat)
    (copyErr : Option Err) (hd : h.typeflag = .dir) :
    (∀ w0 w1 : World, w0.fs.Tree → stat w0.fs (joinPath dst h.name) = none →
      untarEntry dst w0 h body copyErr = (none, w1) →
      ∀ q, (joinPath dst h.name).under q → stat w0.fs q = none →
        w1.fs q = some (.dir 0o755)) ∧
    (∀ (w0 : World) (n : Node), stat w0.fs (joinPath dst h.name) = some n →
      untarEntry dst w0 h body copyErr = (none, w0)) ∧
    (∀ (w : World) (s : TarStream), TarItem.entry h body copyErr ∈ s.items →
      (untar w s dst).1 = none →
      (∃ n, stat (untar w s dst).2.fs (joinPath dst h.name) = some n) ∧
      (∀ m c, stat (untar w s dst).2.fs (joinPath dst h.name) = some (.file m c) →
        (∃ m0 c0, w.fs (joinPath dst h.name) = some (.file m0 c0)) ∨
        (∃ h2 body2 copyErr2, TarItem.entry h2 body2 copyErr2 ∈ s.items ∧
          h2.typeflag = .reg ∧ joinPath dst h2.name = joinPath dst h.name))) := by
  refine ⟨fun w0 w1 ht hnone hr q hq hqn => untarEntry_dir_creates hd ht hnone hr q hq hqn,
    fun w0 n hs => untarEntry_dir_exists body copyErr hd hs, fun w s hmem hok => ?_⟩
  unfold untar at hok ⊢
  rcases hl : untarLoop dst s.final s.items (w.emit (.untarCalled dst)) with ⟨r, w1⟩
  rw [hl] at hok
  simp only at hok
  subst hok
  obtain ⟨a1, a2⟩ := untarLoop_after dst s.final s.items _ w1 hl
  refine ⟨a1 h body copyErr hmem hd, fun m c hf => ?_⟩
  exact a2 _ m c (not_anchor_of_stat_file hf).2

/-- C9 as amended, for the directory entry `a/b/` with stored mode 0700
extracted into the existing empty `d`: both `d/a` and `d/a/b` get mode 0755. -/
theorem untar_dir_entry_amended_witness :
    deepDirHeader.typeflag = .dir ∧
    (untarEntry dirD worldD deepDirHeader [] none).2.fs (relPath ["d", "a"]) =
      some (.dir 0o755) ∧
    (untarEntry dirD worldD deepDirHeader [] none).2.fs (relPath ["d", "a", "b"]) =
      some (.dir 0o755) ∧
    (∃ n, stat (untar worldD streamDeepDir dirD).2.fs (joinPath dirD deepDirHeader.name) =
      some n) :=
  ⟨rfl,
   (untar_dir_entry_amended dirD deepDirHeader [] none rfl).1 worldD
      (untarEntry dirD worldD deepDirHeader [] none).2 fsWithD_tree (by decide)
      (Prod.ext (by decide) rfl) (relPath ["d", "a"]) (by decide) (by decide),
   (untar_dir_entry_amended dirD deepDirHeader [] none rfl).1 worldD
      (untarEntry dirD worldD deepDirHeader [] none).2 fsWithD_tree (by decide)
      (Prod.ext (by decide) rfl) (relPath ["d", "a", "b"]) (by decide) (by decide),
   ((untar_dir_entry_amended dirD deepDirHeader [] none rfl).2.2 worldD streamDeepDir
      (by decide) (by decide)).1⟩

end Archive
